import Mathlib

/-!
Shallow embedding of the goby/dccl acoustic-communications core:
DCCL header constants and hex codecs (src/acomms/acomms_constants.h),
the DCCL `Codec` (dccl.h), the message `Queue` (queue.h), and the NMEA
sentence parser (nmea_sentence.cpp), together with proofs of the claimed
properties.  Components whose implementation files are not part of the
source snapshot (only their declarations are) are modelled from the
specification; each such definition says so in its doc comment.
-/

/-! ## Constants from src/acomms/acomms_constants.h -/

def BITS_IN_BYTE : Nat := 8

def NIBS_IN_BYTE : Nat := 2

def BROADCAST_ID : Int := 0

def QUERY_DESTINATION_ID : Int := -1

def DCCL_CCL_HEADER : Nat := 32

def DCCL_NUM_HEADER_BYTES : Nat := 6

def DCCL_NUM_HEADER_PARTS : Nat := 8

def head_ccl_id_size : Nat := 8

def head_dccl_id_size : Nat := 9

def head_time_size : Nat := 17

def head_src_id_size : Nat := 5

def head_dest_id_size : Nat := 5

def head_flag_size : Nat := 1

def head_unused_size : Nat := 2

/-- The sizes of the eight header parts in the fixed order of the
`DCCLHeaderPart` enum: ccl_id, dccl_id, time, src_id, dest_id,
multimessage_flag, broadcast_flag, unused. -/
def DCCL_HEADER_PART_SIZES : List Nat :=
  [head_ccl_id_size, head_dccl_id_size, head_time_size, head_src_id_size,
   head_dest_id_size, head_flag_size, head_flag_size, head_unused_size]

/-! ## Bit-level buffer (MSB-first packing)

Modelled from the spec §4.1 (BitBuffer): the bit-packing implementation
is not among the source files; `push_bits`/`pop_bits` write and read
`n`-bit unsigned integers MSB-first with no alignment. -/

/-- The `n` low-order bits of `v`, most significant first. -/
def natToBits (v : Nat) : Nat → List Bool
  | 0 => []
  | n + 1 => decide (v / 2 ^ n % 2 = 1) :: natToBits v n

/-- Read a bit list (MSB first) back as an unsigned integer. -/
def bitsToNat : List Bool → Nat
  | [] => 0
  | b :: rest => (cond b 1 0) * 2 ^ rest.length + bitsToNat rest

/-- Modelled from the spec: `pop_bits(n)` yields the next `n` bits as an
unsigned integer; popping past the end fails (kShortFrame). -/
def popBits (n : Nat) (l : List Bool) : Option (Nat × List Bool) :=
  if n ≤ l.length then some (bitsToNat (l.take n), l.drop n) else none

/-! ## Hex codec from src/acomms/acomms_constants.h

`hex_encode`/`hex_decode` delegate to CryptoPP's HexEncoder (with
`uppercase = false`) and HexDecoder; bytes are modelled as naturals
below 256.  The CryptoPP transforms are external library code: encoding
emits two hex characters per byte, high nibble first; decoding skips
characters that are not hex digits, pairs up nibbles high-first, and
drops a trailing unpaired nibble at MessageEnd. -/

/-- One nibble (0..15) as a lowercase hex character (`uppercase = false`
in `hex_encode`). -/
def hexNib (n : Nat) : Char :=
  if n < 10 then Char.ofNat (48 + n) else Char.ofNat (87 + n)

/-- `hex_encode`: two lowercase hex characters per byte, high nibble
first. -/
def hex_encode : List Nat → List Char
  | [] => []
  | b :: rest => hexNib (b / 16) :: hexNib (b % 16) :: hex_encode rest

/-- The value of one hex character; `none` for a non-hex character
(HexDecoder skips those). -/
def hexVal (c : Char) : Option Nat :=
  if 48 ≤ c.toNat ∧ c.toNat ≤ 57 then some (c.toNat - 48)
  else if 97 ≤ c.toNat ∧ c.toNat ≤ 102 then some (c.toNat - 87)
  else if 65 ≤ c.toNat ∧ c.toNat ≤ 70 then some (c.toNat - 55)
  else none

/-- Pair a nibble stream into bytes, high nibble first; a trailing lone
nibble is discarded. -/
def nibblesToBytes : List Nat → List Nat
  | h :: l :: rest => (16 * h + l) :: nibblesToBytes rest
  | _ => []

/-- `hex_decode`: HexDecoder semantics on the character list. -/
def hex_decode (s : List Char) : List Nat :=
  nibblesToBytes (s.filterMap hexVal)

/-- The sixteen characters `hex_encode` may emit: the decimal digits
and the lowercase letters a-f. -/
def lowercaseHexChars : List Char := (List.range 16).map hexNib

/-! ## NMEA sentence parser from nmea_sentence.cpp -/

inductive NMEAStrategy
  | IGNORE
  | VALIDATE
  | REQUIRE
  deriving DecidableEq, Repr

/-- The whitespace test used by boost::trim. -/
def isSpaceChar (c : Char) : Bool :=
  c = ' ' || c = '\t' || c = '\n' || c = '\r' || c = '\x0b' || c = '\x0c'

/-- boost::trim: silently drop leading and trailing whitespace. -/
def trimChars (s : List Char) : List Char :=
  ((s.dropWhile isSpaceChar).reverse.dropWhile isSpaceChar).reverse

/-- tes_util::hex_string2number (external helper): parse a hex string,
failing on the empty string or any non-hex character. -/
def hexStrToNum : List Char → Option Nat
  | [] => some 0
  | c :: rest => do
      let v ← hexVal c
      let r ← hexStrToNum rest
      pure (v * 16 ^ rest.length + r)

/-- `NMEASentence::checksum`: XOR of the characters strictly between the
`$` and the first of `*`, CR, LF (or end of string); `none` models the
thrown runtime_error on an empty string or a string with no `$`. -/
def nmeaChecksum (s : List Char) : Option Nat :=
  if s.isEmpty then none
  else
    match List.findIdx? (fun c => c = '$') s with
    | none => none
    | some dollar =>
      let star :=
        (List.findIdx? (fun c => c = '*' || c = '\r' || c = '\n') s).getD s.length
      some (((s.drop (dollar + 1)).take (star - (dollar + 1))).foldl
              (fun acc c => Nat.xor acc c.toNat) 0)

/-- boost::split on `,`: every comma separates two (possibly empty)
parts. -/
def splitComma : List Char → List (List Char)
  | [] => [[]]
  | c :: rest =>
    if c = ',' then [] :: splitComma rest
    else
      match splitComma rest with
      | p :: ps => (c :: p) :: ps
      | [] => [[c]]

/-- Rejoin parts with commas (`message_no_cs` without the trailing comma
trick). -/
def joinComma : List (List Char) → List Char
  | [] => []
  | [p] => p
  | p :: ps => p ++ ',' :: joinComma ps

/-- The checksum test of the constructor: the checksum is judged
correctly placed exactly when the character three from the end is `*`. -/
def csumPlaced (s1 : List Char) : Bool :=
  s1.length > 3 && decide (s1.get? (s1.length - 3) = some '*')

/-- The checksum-stripping step of the constructor: the trailing `*XX`
is removed only when `csumPlaced`; any other `*` stays in the body. -/
def stripBody (s1 : List Char) : List Char :=
  if csumPlaced s1 then s1.take (s1.length - 3) else s1

/-- The `NMEASentence` constructor: trim, require `$`, strip a checksum
only when the character exactly three from the end is `*`, then enforce
the checksum strategy, split on commas and check the talker length.
Errors model the thrown runtime_errors. -/
def NMEASentence_mk (s0 : List Char) (cs_strat : NMEAStrategy) :
    Except String (List (List Char)) :=
  let s1 := trimChars s0
  if s1.isEmpty then .error ("NMEASentence: no message provided.")
  else if s1.head? ≠ some '$' then .error ("NMEASentence: no $.")
  else
    let s2 := stripBody s1
    let cs := if csumPlaced s1 then hexStrToNum (s1.drop (s1.length - 2)) else none
    let found_csum := cs.isSome
    if cs_strat = NMEAStrategy.REQUIRE && !found_csum then
      .error ("NMEASentence: no checksum.")
    else if found_csum &&
        (cs_strat = NMEAStrategy.REQUIRE || cs_strat = NMEAStrategy.VALIDATE) then
      match nmeaChecksum s2 with
      | none => .error ("NMEASentence::checksum: no message provided.")
      | some calc_cs =>
        if cs.getD 0 ≠ calc_cs then .error ("NMEASentence: bad checksum.")
        else
          let parts := splitComma s2
          if (parts.headD []).length ≠ 6 then
            .error ("NMEASentence: bad talker length.")
          else .ok parts
    else
      let parts := splitComma s2
      if (parts.headD []).length ≠ 6 then
        .error ("NMEASentence: bad talker length.")
      else .ok parts

/-! ## DCCL header

The 48-bit header preamble.  Sizes come from `DCCLHeaderBits` in
acomms_constants.h; the writer itself (the header codec) is not among
the source files and is modelled from the spec §3:
`ccl_id:8 | dccl_id:9 | time:17 | src_id:5 | dest_id:5 |
multimessage_flag:1 | broadcast_flag:1 | unused:2`, with `ccl_id`
fixed to `DCCL_CCL_HEADER = 32`. -/

structure DCCLHeader where
  dccl_id : Nat
  time : Nat
  src_id : Nat
  dest_id : Nat
  multimessage_flag : Bool
  broadcast_flag : Bool
  deriving Repr, DecidableEq

/-- Modelled from the spec: the header writer packs the eight parts
MSB-first in the fixed enum order, writing `DCCL_CCL_HEADER` as the
first 8-bit part. -/
def encodeHeader (h : DCCLHeader) : List Bool :=
  natToBits DCCL_CCL_HEADER head_ccl_id_size ++
  natToBits h.dccl_id head_dccl_id_size ++
  natToBits h.time head_time_size ++
  natToBits h.src_id head_src_id_size ++
  natToBits h.dest_id head_dest_id_size ++
  natToBits (cond h.multimessage_flag 1 0) head_flag_size ++
  natToBits (cond h.broadcast_flag 1 0) head_flag_size ++
  natToBits 0 head_unused_size

/-- Modelled from the spec: the header reader pops the eight parts in
the same fixed order, returning the ccl id separately. -/
def decodeHeader (l : List Bool) : Option (Nat × DCCLHeader × List Bool) := do
  let (ccl, l) ← popBits head_ccl_id_size l
  let (id, l) ← popBits head_dccl_id_size l
  let (t, l) ← popBits head_time_size l
  let (src, l) ← popBits head_src_id_size l
  let (dest, l) ← popBits head_dest_id_size l
  let (mm, l) ← popBits head_flag_size l
  let (bc, l) ← popBits head_flag_size l
  let (_, l) ← popBits head_unused_size l
  some (ccl, ⟨id, t, src, dest, decide (mm = 1), decide (bc = 1)⟩, l)

/-- A header with each numeric part reduced modulo its field width. -/
def truncHeader (h : DCCLHeader) : DCCLHeader :=
  ⟨h.dccl_id % 2 ^ head_dccl_id_size, h.time % 2 ^ head_time_size,
   h.src_id % 2 ^ head_src_id_size, h.dest_id % 2 ^ head_dest_id_size,
   h.multimessage_flag, h.broadcast_flag⟩

/-! ## boost ptime and the Queue from queue.h

The `Queue` class declaration is in the source; its member function
bodies (push_message, give_data, pop_message_ack, expire, flush) are
not, and are modelled from the spec §4.5.  List iterators stored in the
`waiting_for_ack_` multimap are modelled by unique entry ids. -/

/-- boost::posix_time::ptime, shallowly: a default-constructed ptime is
not_a_date_time; `from_iso_string` (external boost code) is modelled as
tagging the parsed text. -/
inductive PTime
  | not_a_date_time
  | fromIso (iso : List Char)
  deriving DecidableEq, Repr

/-- boost::posix_time::from_iso_string, modelled as tagging. -/
def from_iso_string (s : List Char) : PTime := PTime.fromIso s

/-- One queued protobuf::ModemDataTransmission, restricted to the
fields the claims need. -/
structure QMsg where
  iso_time : List Char
  ackRequested : Bool
  creation_time : Nat
  ttl : Nat
  deriving DecidableEq, Repr

/-- Whether a message is past its time to live at `now`. -/
def QMsg.expired (now : Nat) (m : QMsg) : Bool :=
  m.creation_time + m.ttl ≤ now

/-- The Queue state: the FIFO `messages_` list (entry id paired with
message) and the `waiting_for_ack_` multimap from frame number to entry
id. -/
structure QueueState where
  messages : List (Nat × QMsg)
  waiting_for_ack : List (Nat × Nat)
  nextId : Nat
  deriving DecidableEq, Repr

def emptyQueue : QueueState := ⟨[], [], 0⟩

/-- The entry ids currently pending an ack. -/
def waitingIds (q : QueueState) : List Nat := q.waiting_for_ack.map Prod.snd

/-- Modelled from the spec: `push_message` appends to the FIFO (capacity
eviction is not exercised by any claim and is omitted). -/
def push_message (q : QueueState) (m : QMsg) : QueueState :=
  { messages := q.messages ++ [(q.nextId, m)],
    waiting_for_ack := q.waiting_for_ack,
    nextId := q.nextId + 1 }

/-- `next_message_it`: the first FIFO entry not pending an ack. -/
def next_message (q : QueueState) : Option (Nat × QMsg) :=
  q.messages.find? (fun p => !(waitingIds q).contains p.1)

/-- Modelled from the spec: `give_data` selects the next entry for the
requested frame; an ack-requested entry stays in the FIFO and is parked
in the multimap under the frame, others leave the FIFO at once. -/
def give_data (q : QueueState) (frame : Nat) : Option QMsg × QueueState :=
  match next_message q with
  | none => (none, q)
  | some (id, m) =>
    if m.ackRequested then
      (some m, { q with waiting_for_ack := q.waiting_for_ack ++ [(frame, id)] })
    else
      (some m, { q with messages := q.messages.filter (fun p => p.1 ≠ id) })

/-- Modelled from the spec: `pop_message_ack` removes the first multimap
entry for the frame together with its FIFO entry; `none` when no entry
pends on that frame. -/
def pop_message_ack (q : QueueState) (frame : Nat) :
    Option QMsg × QueueState :=
  match q.waiting_for_ack.find? (fun p => p.1 = frame) with
  | none => (none, q)
  | some (f, id) =>
    ((q.messages.find? (fun p => p.1 = id)).map Prod.snd,
     { q with
        messages := q.messages.filter (fun p => p.1 ≠ id),
        waiting_for_ack := q.waiting_for_ack.filter (fun p => p ≠ (f, id)) })

/-- Modelled from the spec: `expire` drops every entry past its ttl from
the FIFO and from the multimap, and returns the expired entries for the
expire() stream. -/
def expireQ (q : QueueState) (now : Nat) : List QMsg × QueueState :=
  let ex := q.messages.filter (fun p => p.2.expired now)
  (ex.map Prod.snd,
   { q with
      messages := q.messages.filter (fun p => !(p.2.expired now)),
      waiting_for_ack :=
        q.waiting_for_ack.filter (fun p => !(ex.map Prod.fst).contains p.2) })

/-- Modelled from the spec: `flush` empties the queue entirely. -/
def flushQ (q : QueueState) : QueueState :=
  { q with messages := [], waiting_for_ack := [] }

/-- `clear_ack_queue` from queue.h: clears only the multimap. -/
def clear_ack_queue (q : QueueState) : QueueState :=
  { q with waiting_for_ack := [] }

/-- `Queue::newest_msg_time` from queue.h:
`size() ? from_iso_string(messages_.back().base().iso_time()) : ptime()`;
`messages_.back()` on the nonempty list is the last element. -/
def newest_msg_time (q : QueueState) : PTime :=
  match q.messages.getLast? with
  | some p => from_iso_string p.2.iso_time
  | none => PTime.not_a_date_time

/-- The queue states reachable through the public operations. -/
inductive QueueReachable : QueueState → Prop
  | init : QueueReachable emptyQueue
  | push {q} (m : QMsg) : QueueReachable q → QueueReachable (push_message q m)
  | give {q} (frame : Nat) : QueueReachable q → QueueReachable (give_data q frame).2
  | ack {q} (frame : Nat) : QueueReachable q → QueueReachable (pop_message_ack q frame).2
  | expire {q} (now : Nat) : QueueReachable q → QueueReachable (expireQ q now).2
  | flush {q} : QueueReachable q → QueueReachable (flushQ q)
  | clearAck {q} : QueueReachable q → QueueReachable (clear_ack_queue q)

/-- The claimed invariant: every pending pair of the ack multimap refers
to an entry that is still in the FIFO and requested an ack.  (The other
direction of "simultaneously present" is definitional: an entry has a
pending frame number exactly when the multimap holds a pair for it.) -/
def ackInv (q : QueueState) : Prop :=
  ∀ p ∈ q.waiting_for_ack,
    ∃ m, (p.2, m) ∈ q.messages ∧ m.ackRequested = true

/-- The inductive strengthening: the invariant plus distinctness of the
pending entry ids. -/
def queueInv (q : QueueState) : Prop :=
  ackInv q ∧ (waitingIds q).Nodup

/-! ## Priority scoring (Queue::priority_values, QueueManager selection)

The implementation of `priority_values` and of the cross-queue
selection is not among the source files; both are modelled from the
spec §4.5. -/

/-- A queue's scoring configuration: base priority `P0` and time
constant `tau`. -/
structure QueueScoreCfg where
  P0 : ℚ
  tau : ℚ
  deriving DecidableEq, Repr

/-- Modelled from the spec: the instantaneous priority score
`P0 * (t - ts) / tau` at time `t` for a queue last sent at `ts`. -/
def priority_values (cfg : QueueScoreCfg) (t ts : ℚ) : ℚ :=
  cfg.P0 * (t - ts) / cfg.tau

/-- Modelled from the spec: the best (queue id, score) among the queues,
earlier entries winning ties. -/
def bestQueue (t : ℚ) : List (Nat × QueueScoreCfg × ℚ) → Option (Nat × ℚ)
  | [] => none
  | (id, cfg, ts) :: rest =>
    let s := priority_values cfg t ts
    match bestQueue t rest with
    | none => some (id, s)
    | some (id', s') => if s' > s then some (id', s') else some (id, s)

/-- Modelled from the spec: cross-queue `select_for_send` returns the id
of the queue with the highest instantaneous score. -/
def select_for_send (t : ℚ) (qs : List (Nat × QueueScoreCfg × ℚ)) :
    Option Nat :=
  (bestQueue t qs).map Prod.fst

/-! ## DCCL message model and body codecs

Modelled from the spec §3, §4.1, §4.3 and §9: the per-field codec
implementations are not among the source files.  The schema language is
the full tagged variant of §3/§9: default numerics (integers and floats
alike, as exact rationals) with `min`/`max`/`precision`, bool, enum
(values numbered by declaration order), length-prefixed strings with
`max_length`, fixed-width zero-padded bytes with `max_length`, and
recursively embedded messages; every field is required, optional, or
repeated with a mandatory `max_count`.  Optional numerics, bools and
enums reserve one code-point for "absent" (§4.3); optional strings,
bytes and embedded messages carry a single presence bit, mirroring the
embedded-message rule. -/

def bitsNeededAux : Nat → Nat → Nat
  | _, 0 => 0
  | 0, _ + 1 => 0
  | f + 1, k + 1 => bitsNeededAux f ((k + 1) / 2) + 1

/-- ceil(log2(k+1)): the number of bits needed to hold values 0..k; the
fuel bounds the recursion depth. -/
def bitsNeeded (k : Nat) : Nat := bitsNeededAux k k

/-- A scalar wire kind with its codec options (§3): numerics carry
`min`/`max`/`precision`, enums the number of declared values, strings
and bytes a `max_length`. -/
inductive ScalarType
  | snum (vmin vmax prec : ℚ)
  | sbool
  | senum (n_values : Nat)
  | sstr (max_length : Nat)
  | sbytes (max_length : Nat)
  deriving DecidableEq, Repr

inductive ScalarValue
  | vnum (x : ℚ)
  | vbool (b : Bool)
  | venum (k : Nat)
  | vstr (s : List Nat)
  | vbytes (s : List Nat)
  deriving DecidableEq, Repr

/-- A field: repetition mode (required / optional / repeated with a
mandatory `max_count`) over a scalar kind or an embedded message whose
sub-schema is carried inline (§3, §9). -/
inductive FieldType
  | frequired (t : ScalarType)
  | foptional (t : ScalarType)
  | frepeated (t : ScalarType) (max_count : Nat)
  | fmsg_required (sub : List FieldType)
  | fmsg_optional (sub : List FieldType)
  | fmsg_repeated (sub : List FieldType) (max_count : Nat)

abbrev Schema := List FieldType

inductive FieldValue
  | vrequired (v : ScalarValue)
  | vopt_none
  | vopt_some (v : ScalarValue)
  | vrepeated (vs : List ScalarValue)
  | vmsg_required (m : List FieldValue)
  | vmsg_none
  | vmsg_some (m : List FieldValue)
  | vmsg_repeated (ms : List (List FieldValue))

abbrev DCCLMsg := List FieldValue

/-- Exact round-half-up of the rational `n / d` for a positive
denominator: `⌊n/d + 1/2⌋ = (2n + d) ediv 2d`, kept in integer
arithmetic so it evaluates. -/
def roundDiv (n : ℤ) (d : ℕ) : ℤ := (2 * n + (d : ℤ)) / (2 * (d : ℤ))

/-- Exact ceiling of the rational `n / d` for a positive denominator:
`⌈n/d⌉ = -⌊-n/d⌋`. -/
def ceilDiv (n : ℤ) (d : ℕ) : ℤ := -(-n / (d : ℤ))

/-- §4.3 default numeric: the number of quantization steps
`ceil((max - min)/precision)`, computed exactly on the rational
components. -/
def qmaxOf (vmin vmax prec : ℚ) : Nat :=
  (ceilDiv ((vmax.num * vmin.den - vmin.num * vmax.den) * prec.den)
    (vmax.den * vmin.den * prec.num.toNat)).toNat

/-- §4.1: a numeric value is mapped to unsigned via
`round((x - min)/precision)` and clamped to the code-point range,
computed exactly on the rational components. -/
def quantNum (vmin prec : ℚ) (qmax : Nat) (x : ℚ) : Nat :=
  min (roundDiv ((x.num * vmin.den - vmin.num * x.den) * prec.den)
    (x.den * vmin.den * prec.num.toNat)).toNat qmax

/-- The value a numeric code-point stands for: `min + q * precision`. -/
def dequantNum (vmin prec : ℚ) (q : Nat) : ℚ :=
  mkRat (vmin.num * prec.den + (q : ℤ) * prec.num * vmin.den)
    (vmin.den * prec.den)

/-- Load-time options validity for one scalar kind (§4.4 `load`
validation): positive precision, ordered numeric bounds, at least one
enum value. -/
def scalarTypeOk : ScalarType → Bool
  | .snum vmin vmax prec => 0 < prec && vmin ≤ vmax
  | .senum n => 0 < n
  | _ => true

mutual

/-- Load-time schema validity (§4.4 `load`), recursively through
embedded messages. -/
def fieldTypeOk : FieldType → Bool
  | .frequired t => scalarTypeOk t
  | .foptional t => scalarTypeOk t
  | .frepeated t _ => scalarTypeOk t
  | .fmsg_required sub => schemaOk sub
  | .fmsg_optional sub => schemaOk sub
  | .fmsg_repeated sub _ => schemaOk sub

def schemaOk : Schema → Bool
  | [] => true
  | f :: s => fieldTypeOk f && schemaOk s

end

/-- Well-typedness of a scalar for its declared kind: numerics within
`[min,max]` (a required numeric outside the range fails encode with
kOutOfRange, §4.3), enum indices within declaration range, string and
bytes entries actual bytes. -/
def scalarOk : ScalarType → ScalarValue → Bool
  | .snum vmin vmax _, .vnum x => vmin ≤ x && x ≤ vmax
  | .sbool, .vbool _ => true
  | .senum n, .venum k => k < n
  | .sstr _, .vstr s => s.all (fun b => b < 256)
  | .sbytes _, .vbytes s => s.all (fun b => b < 256)
  | _, _ => false

mutual

def fieldOk : FieldType → FieldValue → Bool
  | .frequired t, .vrequired v => scalarOk t v
  | .foptional _, .vopt_none => true
  | .foptional t, .vopt_some v => scalarOk t v
  | .frepeated t _, .vrepeated vs => vs.all (scalarOk t)
  | .fmsg_required sub, .vmsg_required m => wellTyped sub m
  | .fmsg_optional _, .vmsg_none => true
  | .fmsg_optional sub, .vmsg_some m => wellTyped sub m
  | .fmsg_repeated sub _, .vmsg_repeated ms => msgListOk sub ms
  | _, _ => false

def wellTyped : Schema → DCCLMsg → Bool
  | [], [] => true
  | f :: s, v :: m => fieldOk f v && wellTyped s m
  | _, _ => false

def msgListOk : Schema → List DCCLMsg → Bool
  | _, [] => true
  | sub, m :: ms => wellTyped sub m && msgListOk sub ms

end

/-- The normalization the codec applies to one scalar: numerics are
clamped and snapped to the precision grid (the §4.1 quantization),
strings truncated to `max_length`, bytes truncated and zero-padded to
exactly `max_length`; bool and enum pass through. -/
def normScalar : ScalarType → ScalarValue → ScalarValue
  | .snum vmin vmax prec, .vnum x =>
    .vnum (dequantNum vmin prec (quantNum vmin prec (qmaxOf vmin vmax prec) x))
  | .sstr maxLen, .vstr s => .vstr (s.take maxLen)
  | .sbytes maxLen, .vbytes s =>
    .vbytes (s.take maxLen ++ List.replicate (maxLen - s.length) 0)
  | _, v => v

mutual

/-- The full normalization `decode ∘ encode` applies: `normScalar` on
scalars, repeated fields truncated to `max_count`, recursively through
embedded messages. -/
def normField : FieldType → FieldValue → FieldValue
  | .frequired t, .vrequired v => .vrequired (normScalar t v)
  | .foptional _, .vopt_none => .vopt_none
  | .foptional t, .vopt_some v => .vopt_some (normScalar t v)
  | .frepeated t maxc, .vrepeated vs =>
    .vrepeated ((vs.take maxc).map (normScalar t))
  | .fmsg_required sub, .vmsg_required m => .vmsg_required (normMsg sub m)
  | .fmsg_optional _, .vmsg_none => .vmsg_none
  | .fmsg_optional sub, .vmsg_some m => .vmsg_some (normMsg sub m)
  | .fmsg_repeated sub maxc, .vmsg_repeated ms =>
    .vmsg_repeated (normMsgListN sub ms maxc)
  | _, v => v

def normMsg : Schema → DCCLMsg → DCCLMsg
  | f :: s, v :: m => normField f v :: normMsg s m
  | _, m => m

def normMsgListN : Schema → List DCCLMsg → Nat → List DCCLMsg
  | _, [], _ => []
  | _, _ :: _, 0 => []
  | sub, m :: ms, n + 1 => normMsg sub m :: normMsgListN sub ms n

end

/-- The normalization stated by claim C1, taken from its words: strings
truncated to `max_length` and nothing else at the scalar level. -/
def truncStatedScalar : ScalarType → ScalarValue → ScalarValue
  | .sstr maxLen, .vstr s => .vstr (s.take maxLen)
  | _, v => v

mutual

/-- The normalization stated by claim C1, taken from its words:
repeated fields truncated to `max_count`, strings truncated to
`max_length`, nothing else, recursively through embedded messages. -/
def truncStatedField : FieldType → FieldValue → FieldValue
  | .frequired t, .vrequired v => .vrequired (truncStatedScalar t v)
  | .foptional _, .vopt_none => .vopt_none
  | .foptional t, .vopt_some v => .vopt_some (truncStatedScalar t v)
  | .frepeated t maxc, .vrepeated vs =>
    .vrepeated ((vs.take maxc).map (truncStatedScalar t))
  | .fmsg_required sub, .vmsg_required m => .vmsg_required (truncStatedMsg sub m)
  | .fmsg_optional _, .vmsg_none => .vmsg_none
  | .fmsg_optional sub, .vmsg_some m => .vmsg_some (truncStatedMsg sub m)
  | .fmsg_repeated sub maxc, .vmsg_repeated ms =>
    .vmsg_repeated (truncStatedListN sub ms maxc)
  | _, v => v

def truncStatedMsg : Schema → DCCLMsg → DCCLMsg
  | f :: s, v :: m => truncStatedField f v :: truncStatedMsg s m
  | _, m => m

def truncStatedListN : Schema → List DCCLMsg → Nat → List DCCLMsg
  | _, [], _ => []
  | _, _ :: _, 0 => []
  | sub, m :: ms, n + 1 => truncStatedMsg sub m :: truncStatedListN sub ms n

end

def encodeBytes : List Nat → List Bool
  | [] => []
  | b :: rest => natToBits b 8 ++ encodeBytes rest

def decodeBytes : Nat → List Bool → Option (List Nat × List Bool)
  | 0, l => some ([], l)
  | n + 1, l => do
      let (b, l) ← popBits 8 l
      let (bs, l) ← decodeBytes n l
      pure (b :: bs, l)

/-- §4.3 required-scalar encoding: a numeric as its clamped quantized
code-point in `ceil(log2((max-min)/precision + 1))` bits; a bool in one
bit; an enum by declaration index in `ceil(log2 n_values)` bits; a
string as a `ceil(log2(max_length+1))`-bit length then the truncated
bytes; bytes as exactly `max_length` bytes, truncated or zero-padded. -/
def encodeScalarReq : ScalarType → ScalarValue → List Bool
  | .snum vmin vmax prec, .vnum x =>
    natToBits (quantNum vmin prec (qmaxOf vmin vmax prec) x)
      (bitsNeeded (qmaxOf vmin vmax prec))
  | .sbool, .vbool b => [b]
  | .senum n, .venum k => natToBits k (bitsNeeded (n - 1))
  | .sstr maxLen, .vstr s =>
    natToBits (s.take maxLen).length (bitsNeeded maxLen) ++
      encodeBytes (s.take maxLen)
  | .sbytes maxLen, .vbytes s =>
    encodeBytes (s.take maxLen ++ List.replicate (maxLen - s.length) 0)
  | _, _ => []

/-- Inverse of `encodeScalarReq`; a reserved enum code-point is invalid
bits (kFieldDecodeError, §7). -/
def decodeScalarReq : ScalarType → List Bool → Option (ScalarValue × List Bool)
  | .snum vmin vmax prec, l => do
      let (q, l) ← popBits (bitsNeeded (qmaxOf vmin vmax prec)) l
      pure (.vnum (dequantNum vmin prec q), l)
  | .sbool, l =>
      match l with
      | b :: l => some (.vbool b, l)
      | [] => none
  | .senum n, l => do
      let (k, l) ← popBits (bitsNeeded (n - 1)) l
      if k < n then pure (.venum k, l) else none
  | .sstr maxLen, l => do
      let (len, l) ← popBits (bitsNeeded maxLen) l
      let (bs, l) ← decodeBytes len l
      pure (.vstr bs, l)
  | .sbytes maxLen, l => do
      let (bs, l) ← decodeBytes maxLen l
      pure (.vbytes bs, l)

/-- §4.3 optional-scalar encoding: a numeric reserves the zero
code-point for "absent" and shifts present values up by one, in
`ceil(log2((max-min)/precision + 2))` bits; an optional bool takes two
bits (absent / false / true); an enum reserves zero and shifts, in
`ceil(log2(n_values + 1))` bits; optional strings and bytes carry a
presence bit before the required encoding, mirroring the
embedded-message rule. -/
def encodeScalarOpt : ScalarType → Option ScalarValue → List Bool
  | .snum vmin vmax prec, none =>
    natToBits 0 (bitsNeeded (qmaxOf vmin vmax prec + 1))
  | .snum vmin vmax prec, some (.vnum x) =>
    natToBits (quantNum vmin prec (qmaxOf vmin vmax prec) x + 1)
      (bitsNeeded (qmaxOf vmin vmax prec + 1))
  | .sbool, none => natToBits 0 2
  | .sbool, some (.vbool b) => natToBits (cond b 2 1) 2
  | .senum n, none => natToBits 0 (bitsNeeded n)
  | .senum n, some (.venum k) => natToBits (k + 1) (bitsNeeded n)
  | .sstr _, none => natToBits 0 1
  | .sstr maxLen, some v => natToBits 1 1 ++ encodeScalarReq (.sstr maxLen) v
  | .sbytes _, none => natToBits 0 1
  | .sbytes maxLen, some v => natToBits 1 1 ++ encodeScalarReq (.sbytes maxLen) v
  | _, _ => []

/-- Inverse of `encodeScalarOpt`; the reserved code-point decodes to
"absent". -/
def decodeScalarOpt :
    ScalarType → List Bool → Option (Option ScalarValue × List Bool)
  | .snum vmin vmax prec, l => do
      let (q, l) ← popBits (bitsNeeded (qmaxOf vmin vmax prec + 1)) l
      match q with
      | 0 => pure (none, l)
      | q + 1 => pure (some (.vnum (dequantNum vmin prec q)), l)
  | .sbool, l => do
      let (q, l) ← popBits 2 l
      match q with
      | 0 => pure (none, l)
      | 1 => pure (some (.vbool false), l)
      | 2 => pure (some (.vbool true), l)
      | _ => none
  | .senum n, l => do
      let (q, l) ← popBits (bitsNeeded n) l
      match q with
      | 0 => pure (none, l)
      | k + 1 => if k < n then pure (some (.venum k), l) else none
  | .sstr maxLen, l => do
      let (b, l) ← popBits 1 l
      if b = 1 then do
        let (v, l) ← decodeScalarReq (.sstr maxLen) l
        pure (some v, l)
      else pure (none, l)
  | .sbytes maxLen, l => do
      let (b, l) ← popBits 1 l
      if b = 1 then do
        let (v, l) ← decodeScalarReq (.sbytes maxLen) l
        pure (some v, l)
      else pure (none, l)

def encodeScalarList (t : ScalarType) : List ScalarValue → List Bool
  | [] => []
  | v :: vs => encodeScalarReq t v ++ encodeScalarList t vs

def decodeScalarList (t : ScalarType) :
    Nat → List Bool → Option (List ScalarValue × List Bool)
  | 0, l => some ([], l)
  | n + 1, l => do
      let (v, l) ← decodeScalarReq t l
      let (vs, l) ← decodeScalarList t n l
      pure (v :: vs, l)

mutual

/-- §4.3 field encoding: scalars per repetition mode; an optional
embedded message carries a presence bit and an absent body contributes
nothing beyond it; a repeated field writes a
`ceil(log2(max_count+1))`-bit count then that many elements, silently
truncated to `max_count`. -/
def encodeField : FieldType → FieldValue → List Bool
  | .frequired t, .vrequired v => encodeScalarReq t v
  | .foptional t, .vopt_none => encodeScalarOpt t none
  | .foptional t, .vopt_some v => encodeScalarOpt t (some v)
  | .frepeated t maxc, .vrepeated vs =>
    natToBits (vs.take maxc).length (bitsNeeded maxc) ++
      encodeScalarList t (vs.take maxc)
  | .fmsg_required sub, .vmsg_required m => encodeBody sub m
  | .fmsg_optional _, .vmsg_none => natToBits 0 1
  | .fmsg_optional sub, .vmsg_some m => natToBits 1 1 ++ encodeBody sub m
  | .fmsg_repeated sub maxc, .vmsg_repeated ms =>
    natToBits (min maxc ms.length) (bitsNeeded maxc) ++
      encodeMsgListN sub ms maxc
  | _, _ => []

/-- Bodies concatenate the field encodings in declaration order
(§4.3). -/
def encodeBody : Schema → DCCLMsg → List Bool
  | f :: s, v :: m => encodeField f v ++ encodeBody s m
  | _, _ => []

/-- The first `n` embedded messages of a repeated-message field,
encoded in order. -/
def encodeMsgListN : Schema → List DCCLMsg → Nat → List Bool
  | _, [], _ => []
  | _, _ :: _, 0 => []
  | sub, m :: ms, n + 1 => encodeBody sub m ++ encodeMsgListN sub ms n

end

/-- Decode `n` successive embedded messages with the given element
decoder; the count recursion is a closed `Nat.rec` so that it stays
structural inside the mutual decoder below. -/
def decodeMsgListAux (dec : List Bool → Option (DCCLMsg × List Bool)) :
    Nat → List Bool → Option (List DCCLMsg × List Bool) :=
  fun n =>
    Nat.rec (motive := fun _ => List Bool → Option (List DCCLMsg × List Bool))
      (fun l => some ([], l))
      (fun _ ih l =>
        (dec l).bind (fun p =>
          (ih p.2).bind (fun q => some (p.1 :: q.1, q.2)))) n

mutual

/-- §4.3 field decoding, inverse to `encodeField`. -/
def decodeField : FieldType → List Bool → Option (FieldValue × List Bool)
  | .frequired t, l =>
    (decodeScalarReq t l).map (fun p => (.vrequired p.1, p.2))
  | .foptional t, l =>
    (decodeScalarOpt t l).map (fun p =>
      (match p.1 with
       | none => FieldValue.vopt_none
       | some v => FieldValue.vopt_some v, p.2))
  | .frepeated t maxc, l => do
      let (n, l) ← popBits (bitsNeeded maxc) l
      let (vs, l) ← decodeScalarList t n l
      pure (.vrepeated vs, l)
  | .fmsg_required sub, l =>
    (decodeBody sub l).map (fun p => (.vmsg_required p.1, p.2))
  | .fmsg_optional sub, l => do
      let (b, l) ← popBits 1 l
      if b = 1 then do
        let (m, l) ← decodeBody sub l
        pure (.vmsg_some m, l)
      else pure (.vmsg_none, l)
  | .fmsg_repeated sub maxc, l => do
      let (n, l) ← popBits (bitsNeeded maxc) l
      (decodeMsgListAux (decodeBody sub) n l).bind (fun p =>
        some (.vmsg_repeated p.1, p.2))

def decodeBody : Schema → List Bool → Option (DCCLMsg × List Bool)
  | [], l => some ([], l)
  | f :: s, l => do
      let (v, l) ← decodeField f l
      let (m, l) ← decodeBody s l
      pure (v :: m, l)

end

/-- One output byte from up to 8 bits, the low-order end zero-padded. -/
def byteOfBits (l : List Bool) : Nat :=
  bitsToNat (l ++ List.replicate (8 - l.length) false)

def bitsToBytesAux : Nat → List Bool → List Nat
  | _, [] => []
  | 0, _ :: _ => []
  | n + 1, b :: rest =>
    byteOfBits ((b :: rest).take 8) :: bitsToBytesAux n (rest.drop 7)

/-- Pack a bit list into bytes, the final byte zero-padded (spec §4.1);
the fuel is the list length, which bounds the number of output bytes. -/
def bitsToBytes (l : List Bool) : List Nat := bitsToBytesAux l.length l

/-! ## Crypto (Codec::encrypt / decrypt, crypto_key_)

dccl.h declares `encrypt`, `decrypt` and `crypto_key_` ("SHA256 hash of
the crypto passphrase"); their bodies and the crypto++ primitives are
not among the source files.  Modelled from the spec §4.4: the key is the
SHA-256 digest of the passphrase and the body bytes (never the 6 header
bytes) are XORed with a keystream generated from the key and the
6-header-byte nonce.  The digest and the AES-CFB keystream are external
crypto++ code and are modelled by executable stand-in mixers; no claim
depends on the real compression function. -/

/-- Modelled from the spec: stand-in for the external SHA-256 digest of
the passphrase (32 bytes). -/
def sha256 (passphrase : List Nat) : List Nat :=
  (List.range 32).map
    (fun i => passphrase.foldl (fun acc b => (acc * 131 + b + 89) % 8191) (i + 3) % 256)

/-- Modelled from the spec: stand-in for one byte of the AES-CFB
keystream generated from the key and the header nonce. -/
def keystreamByte (key nonce : List Nat) (i : Nat) : Nat :=
  ((key ++ nonce).foldl (fun acc b => (acc * 131 + b + 89) % 8191) (i + 3) * 37 + i) % 256

/-- The keystream of the requested length. -/
def keystream (key nonce : List Nat) (n : Nat) : List Nat :=
  (List.range n).map (keystreamByte key nonce)

def xorBytes (body ks : List Nat) : List Nat := List.zipWith Nat.xor body ks

/-- Modelled from the spec: `Codec::encrypt` leaves the 6 header bytes
alone and XORs the body bytes with the keystream keyed by the header
nonce; a cleared key (no passphrase) skips encryption. -/
def dcclEncrypt (key bs : List Nat) : List Nat :=
  if key.isEmpty then bs
  else
    bs.take DCCL_NUM_HEADER_BYTES ++
      xorBytes (bs.drop DCCL_NUM_HEADER_BYTES)
        (keystream key (bs.take DCCL_NUM_HEADER_BYTES)
          (bs.drop DCCL_NUM_HEADER_BYTES).length)

/-- Modelled from the spec: `Codec::decrypt`, the inverse XOR with the
same keystream. -/
def dcclDecrypt (key bs : List Nat) : List Nat :=
  if key.isEmpty then bs
  else
    bs.take DCCL_NUM_HEADER_BYTES ++
      xorBytes (bs.drop DCCL_NUM_HEADER_BYTES)
        (keystream key (bs.take DCCL_NUM_HEADER_BYTES)
          (bs.drop DCCL_NUM_HEADER_BYTES).length)

/-! ## The Codec from dccl.h -/

inductive DCCLError
  | kUnknownId
  | kShortFrame
  | kFieldDecodeError
  deriving DecidableEq, Repr

/-- The Codec state: the `id2desc_` map from dccl id to loaded schema
and `crypto_key_` (empty when no passphrase is set). -/
structure Codec where
  id2desc : List (Nat × Schema)
  crypto_key : List Nat

/-- `Codec::set_crypto_passphrase`: store the SHA-256 hash of the
passphrase as the key. -/
def set_crypto_passphrase (c : Codec) (passphrase : List Nat) : Codec :=
  { c with crypto_key := sha256 passphrase }

/-- Modelled from the spec: `Codec::encode` writes the 48-bit header,
then the body bits in schema order, pads to whole bytes, and encrypts
the body bytes when a passphrase is configured; encode of an ill-typed
message fails and leaves no output. -/
def Codec.encode (c : Codec) (hd : DCCLHeader) (sch : Schema) (m : DCCLMsg) :
    Option (List Nat) :=
  if wellTyped sch m then
    some (dcclEncrypt c.crypto_key (bitsToBytes (encodeHeader hd ++ encodeBody sch m)))
  else none

/-- `Codec::id(bytes)`: peek-only read of the dccl id from the header
bytes; no schema lookup, no message construction, no field walk. -/
def id_from_encoded (bytes : List Nat) : Option Nat := do
  let (_, l) ← popBits head_ccl_id_size
    (encodeBytes (bytes.take DCCL_NUM_HEADER_BYTES))
  let (id, _) ← popBits head_dccl_id_size l
  pure id

/-- `Codec::decode` (the dynamic form of dccl.h lines 225-238): peek the
id with `id(bytes)` first, fail with kUnknownId when `id2desc_` has no
entry for it — before any message is constructed and before any field
is decoded — otherwise construct the message, decrypt, and walk the
fields. -/
def Codec.decode (c : Codec) (bytes : List Nat) :
    Except DCCLError (DCCLHeader × DCCLMsg) :=
  match id_from_encoded bytes with
  | none => .error DCCLError.kShortFrame
  | some this_id =>
    match c.id2desc.lookup this_id with
    | none => .error DCCLError.kUnknownId
    | some sch =>
      let bytes' := dcclDecrypt c.crypto_key bytes
      match decodeHeader (encodeBytes bytes') with
      | none => .error DCCLError.kShortFrame
      | some (_, hd, body) =>
        match decodeBody sch body with
        | none => .error DCCLError.kShortFrame
        | some (m, _) => .ok (hd, m)

/-! ## Theorems -/

theorem natToBits_length (v n : Nat) : (natToBits v n).length = n := by
  induction n with
  | zero => rfl
  | succ n ih => simp [natToBits, ih]

theorem mod_two_pow_succ (v n : Nat) :
    v % 2 ^ (n + 1) = v / 2 ^ n % 2 * 2 ^ n + v % 2 ^ n := by
  rw [pow_succ, Nat.mod_mul]
  ring

theorem bitsToNat_natToBits (v n : Nat) :
    bitsToNat (natToBits v n) = v % 2 ^ n := by
  induction n with
  | zero => simp [natToBits, bitsToNat, Nat.mod_one]
  | succ n ih =>
    rw [natToBits, bitsToNat, natToBits_length, ih, mod_two_pow_succ]
    rcases Nat.mod_two_eq_zero_or_one (v / 2 ^ n) with h | h <;> simp [h]

theorem take_append_bits (v n : Nat) (rest : List Bool) :
    (natToBits v n ++ rest).take n = natToBits v n := by
  rw [List.take_append_of_le_length (by rw [natToBits_length])]
  simp [List.take_of_length_le, natToBits_length]

theorem drop_append_bits (v n : Nat) (rest : List Bool) :
    (natToBits v n ++ rest).drop n = rest := by
  rw [List.drop_append_of_le_length (by rw [natToBits_length])]
  simp [List.drop_of_length_le, natToBits_length]

theorem popBits_natToBits (v n : Nat) (rest : List Bool) :
    popBits n (natToBits v n ++ rest) = some (v % 2 ^ n, rest) := by
  unfold popBits
  rw [if_pos (by simp [natToBits_length])]
  rw [take_append_bits, drop_append_bits, bitsToNat_natToBits]

theorem decodeHeader_encodeHeader (h : DCCLHeader) (rest : List Bool) :
    decodeHeader (encodeHeader h ++ rest) =
      some (DCCL_CCL_HEADER, truncHeader h, rest) := by
  unfold decodeHeader encodeHeader
  simp only [List.append_assoc, popBits_natToBits, Option.bind_eq_bind,
    Option.some_bind, truncHeader]
  cases h1 : h.multimessage_flag <;> cases h2 : h.broadcast_flag <;>
    simp [DCCL_CCL_HEADER, head_ccl_id_size, head_flag_size]

theorem encodeHeader_length (h : DCCLHeader) : (encodeHeader h).length = 48 := by
  simp [encodeHeader, natToBits_length, head_ccl_id_size, head_dccl_id_size,
    head_time_size, head_src_id_size, head_dest_id_size, head_flag_size,
    head_unused_size]

/-- C2: every encoded DCCL frame begins with a header of exactly 48 bits
(6 bytes), laid out in the fixed order ccl_id:8, dccl_id:9, time:17,
src_id:5, dest_id:5, multimessage_flag:1, broadcast_flag:1, unused:2
(reading the parts back in that order recovers them), and the ccl_id
part always holds the constant `DCCL_CCL_HEADER = 32`. -/
theorem dccl_header_layout_c2 (h : DCCLHeader) (rest : List Bool) :
    (encodeHeader h).length = DCCL_NUM_HEADER_BYTES * BITS_IN_BYTE ∧
    DCCL_HEADER_PART_SIZES.sum = DCCL_NUM_HEADER_BYTES * BITS_IN_BYTE ∧
    DCCL_HEADER_PART_SIZES.length = DCCL_NUM_HEADER_PARTS ∧
    decodeHeader (encodeHeader h ++ rest) =
      some (DCCL_CCL_HEADER, truncHeader h, rest) ∧
    DCCL_CCL_HEADER = 32 := by
  exact ⟨by rw [encodeHeader_length]; decide, by decide, by decide,
    decodeHeader_encodeHeader h rest, by decide⟩

theorem hexVal_hexNib {n : Nat} (h : n < 16) : hexVal (hexNib n) = some n := by
  interval_cases n <;> decide

theorem hexNib_mem_lower {n : Nat} (h : n < 16) : hexNib n ∈ lowercaseHexChars :=
  List.mem_map_of_mem hexNib (List.mem_range.2 h)

/-- C9: for every byte string, `hex_decode (hex_encode s) = s`, and
`hex_encode` produces exactly `2 * |s|` characters, all of them
lowercase hexadecimal digits. -/
theorem hex_roundtrip_c9 (s : List Nat) (hs : ∀ b ∈ s, b < 256) :
    hex_decode (hex_encode s) = s ∧
    (hex_encode s).length = 2 * s.length ∧
    ∀ c ∈ hex_encode s, c ∈ lowercaseHexChars := by
  induction s with
  | nil => exact ⟨rfl, rfl, by simp [hex_encode]⟩
  | cons b rest ih =>
    have hb : b < 256 := hs b (by simp)
    have h1 : b / 16 < 16 := Nat.div_lt_of_lt_mul (by omega)
    have h2 : b % 16 < 16 := Nat.mod_lt _ (by omega)
    obtain ⟨r1, r2, r3⟩ := ih (fun x hx => hs x (by simp [hx]))
    refine ⟨?_, ?_, ?_⟩
    · unfold hex_decode at r1 ⊢
      rw [hex_encode, List.filterMap_cons, hexVal_hexNib h1,
        List.filterMap_cons, hexVal_hexNib h2, nibblesToBytes, r1,
        Nat.div_add_mod]
    · simp [hex_encode, r2]; ring
    · intro c hc
      rw [hex_encode] at hc
      simp only [List.mem_cons] at hc
      rcases hc with hc | hc | hc
      · exact hc ▸ hexNib_mem_lower h1
      · exact hc ▸ hexNib_mem_lower h2
      · exact r3 c hc

theorem hex_roundtrip_c9_witness :
    hex_decode (hex_encode [0, 17, 171, 255]) = [0, 17, 171, 255] ∧
    (hex_encode [0, 17, 171, 255]).length = 2 * [0, 17, 171, 255].length ∧
    ∀ c ∈ hex_encode [0, 17, 171, 255], c ∈ lowercaseHexChars :=
  hex_roundtrip_c9 [0, 17, 171, 255] (by decide)

theorem splitComma_ne_nil (s : List Char) : splitComma s ≠ [] := by
  cases s with
  | nil => simp [splitComma]
  | cons c rest =>
    unfold splitComma
    by_cases hc : c = ','
    · simp [hc]
    · simp only [if_neg hc]
      cases splitComma rest <;> simp

theorem joinComma_cons_cons (c : Char) (p : List Char) (ps : List (List Char)) :
    joinComma ((c :: p) :: ps) = c :: joinComma (p :: ps) := by
  cases ps <;> simp [joinComma]

theorem joinComma_splitComma (s : List Char) : joinComma (splitComma s) = s := by
  induction s with
  | nil => rfl
  | cons c rest ih =>
    unfold splitComma
    by_cases hc : c = ','
    · subst hc
      simp only [if_pos rfl]
      cases h : splitComma rest with
      | nil => exact absurd h (splitComma_ne_nil rest)
      | cons p ps =>
        rw [h] at ih
        simpa [joinComma] using ih
    · simp only [if_neg hc]
      cases h : splitComma rest with
      | nil => exact absurd h (splitComma_ne_nil rest)
      | cons p ps =>
        rw [h] at ih
        rw [joinComma_cons_cons, ih]

theorem mem_of_get?_eq {α : Type} {l : List α} {i : Nat} {a : α}
    (h : l.get? i = some a) : a ∈ l := by
  induction l generalizing i with
  | nil => simp [List.get?] at h
  | cons x xs ih =>
    cases i with
    | zero => simp [List.get?] at h; simp [h]
    | succ j => exact List.mem_cons_of_mem x (ih (by simpa [List.get?] using h))

theorem get?_take_of_lt {α : Type} (l : List α) {i n : Nat} (h : i < n) :
    (l.take n).get? i = l.get? i := by
  induction l generalizing i n with
  | nil => simp
  | cons x xs ih =>
    cases n with
    | zero => omega
    | succ m =>
      cases i with
      | zero => simp [List.take, List.get?]
      | succ j => simpa [List.take, List.get?] using ih (by omega)

theorem stripBody_get? (s1 : List Char) (i : Nat) (h : i + 3 < s1.length) :
    (stripBody s1).get? i = s1.get? i := by
  unfold stripBody
  split
  · exact get?_take_of_lt s1 (by omega)
  · rfl

/-- C8: a `*` inside the payload before the real trailing checksum is
treated as message content: the constructor keeps exactly `stripBody`
of the trimmed input (a checksum is stripped only when the `*` sits
exactly three characters from the end), every character more than three
from the end survives unchanged, an earlier `*` therefore remains in
the parsed parts, and when no `*` sits three from the end nothing is
stripped at all. -/
theorem nmea_star_in_payload_c8 (s0 : List Char) (strat : NMEAStrategy)
    (parts : List (List Char)) (hok : NMEASentence_mk s0 strat = .ok parts) :
    joinComma parts = stripBody (trimChars s0) ∧
    (∀ i, i + 3 < (trimChars s0).length →
      (stripBody (trimChars s0)).get? i = (trimChars s0).get? i) ∧
    (∀ i, i + 3 < (trimChars s0).length → (trimChars s0).get? i = some '*' →
      '*' ∈ joinComma parts) ∧
    (csumPlaced (trimChars s0) = false → joinComma parts = trimChars s0) := by
  have hparts : parts = splitComma (stripBody (trimChars s0)) := by
    simp only [NMEASentence_mk] at hok
    repeat' split at hok
    all_goals simp_all
  have hjoin : joinComma parts = stripBody (trimChars s0) := by
    rw [hparts, joinComma_splitComma]
  refine ⟨hjoin, fun i hi => stripBody_get? _ i hi, fun i hi hstar => ?_, ?_⟩
  · rw [hjoin]
    exact mem_of_get?_eq (by rw [stripBody_get? _ i hi, hstar])
  · intro hnc
    rw [hjoin, stripBody, hnc]
    simp

theorem nmea_star_in_payload_c8_witness :
    NMEASentence_mk (("$GPGGA,a*b,cd*1F").toList) NMEAStrategy.IGNORE =
      .ok [("$GPGGA").toList, ("a*b").toList, ("cd").toList] ∧
    joinComma [("$GPGGA").toList, ("a*b").toList, ("cd").toList] =
      stripBody (trimChars (("$GPGGA,a*b,cd*1F").toList)) ∧
    '*' ∈ joinComma [("$GPGGA").toList, ("a*b").toList, ("cd").toList] := by
  have hok : NMEASentence_mk (("$GPGGA,a*b,cd*1F").toList) NMEAStrategy.IGNORE =
      .ok [("$GPGGA").toList, ("a*b").toList, ("cd").toList] := by rfl
  have h := nmea_star_in_payload_c8 (("$GPGGA,a*b,cd*1F").toList)
    NMEAStrategy.IGNORE [("$GPGGA").toList, ("a*b").toList, ("cd").toList] hok
  exact ⟨hok, h.1, h.2.2.1 8 (by decide) (by decide)⟩

theorem getLast?_append_singleton {α : Type} (l : List α) (a : α) :
    (l ++ [a]).getLast? = some a := by
  induction l with
  | nil => rfl
  | cons x xs ih => rw [List.cons_append, List.getLast?_cons, ih]; rfl

/-- C10: Queue::newest_msg_time is total at the public interface: on an
empty queue it returns a default-constructed (not-a-date-time) ptime
rather than reading into the empty list, and on a queue just pushed to
it returns the time parsed from that most recently pushed message. -/
theorem newest_msg_time_total_c10 (q : QueueState) (m : QMsg) :
    (q.messages = [] → newest_msg_time q = PTime.not_a_date_time) ∧
    newest_msg_time (push_message q m) = from_iso_string m.iso_time := by
  constructor
  · intro h
    simp [newest_msg_time, h]
  · simp [newest_msg_time, push_message, getLast?_append_singleton]

theorem newest_msg_time_total_c10_witness :
    newest_msg_time emptyQueue = PTime.not_a_date_time ∧
    newest_msg_time
        (push_message emptyQueue ⟨("20120101T000000").toList, false, 0, 10⟩) =
      from_iso_string (("20120101T000000").toList) :=
  ⟨(newest_msg_time_total_c10 emptyQueue
      ⟨("20120101T000000").toList, false, 0, 10⟩).1 rfl,
   (newest_msg_time_total_c10 emptyQueue
      ⟨("20120101T000000").toList, false, 0, 10⟩).2⟩

/-- C5: decoding a byte string whose header carries a dccl id that was
never loaded fails with the distinct error kUnknownId; in
`Codec.decode` the failing table lookup happens right after the id
peek, before any message construction, decryption, or field walk. -/
theorem decode_unknown_id_c5 (c : Codec) (bytes : List Nat) (i : Nat)
    (hid : id_from_encoded bytes = some i)
    (hno : c.id2desc.lookup i = none) :
    Codec.decode c bytes = .error DCCLError.kUnknownId := by
  simp [Codec.decode, hid, hno]

theorem decode_unknown_id_c5_witness :
    Codec.decode ⟨[], []⟩ [0, 0, 0, 0, 0, 0] = .error DCCLError.kUnknownId :=
  decode_unknown_id_c5 ⟨[], []⟩ [0, 0, 0, 0, 0, 0] 0 (by rfl) (by rfl)

theorem bestQueue_eq_none (t : ℚ) (qs : List (Nat × QueueScoreCfg × ℚ)) :
    bestQueue t qs = none ↔ qs = [] := by
  cases qs with
  | nil => simp [bestQueue]
  | cons p rest =>
    obtain ⟨id0, cfg0, ts0⟩ := p
    simp only [bestQueue]
    cases bestQueue t rest with
    | none => simp
    | some b =>
      obtain ⟨id', s'⟩ := b
      by_cases hgt : s' > priority_values cfg0 t ts0 <;> simp [hgt]

theorem bestQueue_spec (t : ℚ) (qs : List (Nat × QueueScoreCfg × ℚ))
    (id : Nat) (s : ℚ) (h : bestQueue t qs = some (id, s)) :
    (∃ cfg ts, (id, cfg, ts) ∈ qs ∧ s = priority_values cfg t ts) ∧
    ∀ p ∈ qs, priority_values p.2.1 t p.2.2 ≤ s := by
  induction qs generalizing id s with
  | nil => simp [bestQueue] at h
  | cons p rest ih =>
    obtain ⟨id0, cfg0, ts0⟩ := p
    simp only [bestQueue] at h
    cases hb : bestQueue t rest with
    | none =>
      rw [hb] at h
      have hrest : rest = [] := (bestQueue_eq_none t rest).1 hb
      subst hrest
      simp only [Option.some.injEq, Prod.mk.injEq] at h
      obtain ⟨h1, h2⟩ := h
      subst h1; subst h2
      exact ⟨⟨cfg0, ts0, by simp⟩, by simp⟩
    | some b =>
      obtain ⟨id', s'⟩ := b
      rw [hb] at h
      dsimp only at h
      by_cases hgt : s' > priority_values cfg0 t ts0
      · rw [if_pos hgt] at h
        simp only [Option.some.injEq, Prod.mk.injEq] at h
        obtain ⟨h1, h2⟩ := h
        subst h1; subst h2
        obtain ⟨⟨cfg, ts, hmem, hsv⟩, hmax⟩ := ih _ _ hb
        refine ⟨⟨cfg, ts, List.mem_cons_of_mem _ hmem, hsv⟩, ?_⟩
        intro p hp
        rcases List.mem_cons.1 hp with hp | hp
        · subst hp; simpa using le_of_lt hgt
        · exact hmax p hp
      · rw [if_neg hgt] at h
        simp only [Option.some.injEq, Prod.mk.injEq] at h
        obtain ⟨h1, h2⟩ := h
        subst h1; subst h2
        obtain ⟨⟨cfg, ts, _, hsv⟩, hmax⟩ := ih _ _ hb
        refine ⟨⟨cfg0, ts0, by simp, rfl⟩, ?_⟩
        intro p hp
        rcases List.mem_cons.1 hp with hp | hp
        · subst hp; simp
        · exact le_trans (hmax p hp) (not_lt.1 hgt)

/-- C4: the instantaneous priority score of a queue with base priority
P0, time constant tau and last send time ts at time t is
P0 * (t - ts) / tau; cross-queue selection returns a queue of maximal
score; and with queue A (P0=5, tau=10) and queue B (P0=1, tau=1) both
last sent at t=0, selection at t=2 returns B (score 2.0 beats 1.0). -/
theorem priority_selection_c4 :
    (∀ cfg t ts, priority_values cfg t ts = cfg.P0 * (t - ts) / cfg.tau) ∧
    (∀ t qs id, select_for_send t qs = some id →
      ∃ cfg ts s, (id, cfg, ts) ∈ qs ∧ s = priority_values cfg t ts ∧
        ∀ p ∈ qs, priority_values p.2.1 t p.2.2 ≤ s) ∧
    priority_values ⟨5, 10⟩ 2 0 = 1 ∧
    priority_values ⟨1, 1⟩ 2 0 = 2 ∧
    select_for_send 2 [(1, ⟨5, 10⟩, 0), (2, ⟨1, 1⟩, 0)] = some 2 := by
  refine ⟨fun cfg t ts => rfl, ?_, by norm_num [priority_values],
    by norm_num [priority_values], ?_⟩
  · intro t qs id h
    obtain ⟨⟨id', s⟩, hb, hid⟩ := Option.map_eq_some'.1 h
    cases hid
    obtain ⟨⟨cfg, ts, hmem, hsv⟩, hmax⟩ := bestQueue_spec t qs id' s hb
    exact ⟨cfg, ts, s, hmem, hsv, hmax⟩
  · show (bestQueue 2 [(1, ⟨5, 10⟩, 0), (2, ⟨1, 1⟩, 0)]).map Prod.fst = some 2
    norm_num [bestQueue, priority_values]

theorem priority_selection_c4_witness :
    select_for_send 2 [(1, ⟨5, 10⟩, 0), (2, ⟨1, 1⟩, 0)] = some 2 ∧
    (∃ cfg ts s,
      ((2 : Nat), cfg, ts) ∈
        [((1 : Nat), (⟨5, 10⟩ : QueueScoreCfg), (0 : ℚ)), (2, ⟨1, 1⟩, 0)] ∧
      s = priority_values cfg 2 ts ∧
      ∀ p ∈ [((1 : Nat), (⟨5, 10⟩ : QueueScoreCfg), (0 : ℚ)), (2, ⟨1, 1⟩, 0)],
        priority_values p.2.1 2 p.2.2 ≤ s) :=
  ⟨priority_selection_c4.2.2.2.2,
   priority_selection_c4.2.1 2 _ 2 priority_selection_c4.2.2.2.2⟩

theorem bitsToNat_lt (l : List Bool) : bitsToNat l < 2 ^ l.length := by
  induction l with
  | nil => simp [bitsToNat]
  | cons b rest ih =>
    rw [bitsToNat, List.length_cons, pow_succ]
    cases b <;> simp <;> omega

theorem natToBits_high (a r n : Nat) :
    natToBits (a * 2 ^ n + r) n = natToBits r n := by
  induction n generalizing a with
  | zero => rfl
  | succ n ih =>
    have hpos : 0 < 2 ^ n := by positivity
    rw [natToBits, natToBits]
    simp only [List.cons.injEq]
    constructor
    · congr 1
      have h2 : a * 2 ^ (n + 1) + r = 2 ^ n * (a * 2) + r := by rw [pow_succ]; ring
      rw [h2, Nat.mul_add_div hpos, mul_comm a 2, Nat.mul_add_mod]
    · have h2 : a * 2 ^ (n + 1) + r = (a * 2) * 2 ^ n + r := by rw [pow_succ]; ring
      rw [h2, ih]

theorem natToBits_bitsToNat (l : List Bool) :
    natToBits (bitsToNat l) l.length = l := by
  induction l with
  | nil => rfl
  | cons b rest ih =>
    have hpos : 0 < 2 ^ rest.length := by positivity
    rw [bitsToNat, List.length_cons, natToBits]
    simp only [List.cons.injEq]
    constructor
    · have hlt := bitsToNat_lt rest
      have h2 : (bif b then 1 else 0) * 2 ^ rest.length + bitsToNat rest =
          2 ^ rest.length * (bif b then 1 else 0) + bitsToNat rest := by ring
      rw [h2, Nat.mul_add_div hpos, Nat.div_eq_of_lt hlt]
      cases b <;> simp
    · rw [natToBits_high, ih]

theorem bitsToBytesAux_congr :
    ∀ n m (l : List Bool), l.length ≤ n → l.length ≤ m →
      bitsToBytesAux n l = bitsToBytesAux m l := by
  intro n
  induction n with
  | zero =>
    intro m l hn _
    cases l with
    | nil => cases m <;> rfl
    | cons b rest => simp at hn
  | succ n ih =>
    intro m l hn hm
    cases l with
    | nil => cases m <;> rfl
    | cons b rest =>
      cases m with
      | zero => simp at hm
      | succ m =>
        rw [bitsToBytesAux, bitsToBytesAux]
        congr 1
        apply ih
        · simp only [List.length_drop, List.length_cons] at hn ⊢
          omega
        · simp only [List.length_drop, List.length_cons] at hm ⊢
          omega

theorem bitsToBytes_nil : bitsToBytes [] = [] := rfl

theorem bitsToBytes_cons (b : Bool) (rest : List Bool) :
    bitsToBytes (b :: rest) =
      byteOfBits ((b :: rest).take 8) :: bitsToBytes (rest.drop 7) := by
  show bitsToBytesAux (b :: rest).length (b :: rest) = _
  rw [List.length_cons, bitsToBytesAux]
  congr 1
  exact bitsToBytesAux_congr rest.length (rest.drop 7).length (rest.drop 7)
    (by simp only [List.length_drop]; omega) le_rfl

theorem bitsToBytes_ind (motive : List Bool → Prop) (h1 : motive [])
    (h2 : ∀ b rest, motive (rest.drop 7) → motive (b :: rest)) :
    ∀ l, motive l := by
  have H : ∀ n (l : List Bool), l.length ≤ n → motive l := by
    intro n
    induction n with
    | zero =>
      intro l hl
      cases l with
      | nil => exact h1
      | cons b rest => simp at hl
    | succ n ih =>
      intro l hl
      cases l with
      | nil => exact h1
      | cons b rest =>
        refine h2 b rest (ih _ ?_)
        simp only [List.length_drop]
        simp only [List.length_cons] at hl
        omega
  exact fun l => H l.length l le_rfl

theorem encodeBytes_append (a b : List Nat) :
    encodeBytes (a ++ b) = encodeBytes a ++ encodeBytes b := by
  induction a with
  | nil => rfl
  | cons x xs ih => simp [encodeBytes, ih]

theorem byteOfBits_bits (t : List Bool) (ht : t.length ≤ 8) :
    natToBits (byteOfBits t) 8 = t ++ List.replicate (8 - t.length) false := by
  have hlen : (t ++ List.replicate (8 - t.length) false).length = 8 := by
    simp only [List.length_append, List.length_replicate]
    omega
  have h0 := natToBits_bitsToNat (t ++ List.replicate (8 - t.length) false)
  rw [hlen] at h0
  rw [byteOfBits]
  exact h0

theorem encodeBytes_bitsToBytes (l : List Bool) :
    ∃ k, encodeBytes (bitsToBytes l) = l ++ List.replicate k false := by
  induction l using bitsToBytes_ind with
  | h1 => exact ⟨0, by simp [bitsToBytes_nil, encodeBytes]⟩
  | h2 b rest ih =>
    obtain ⟨k, hk⟩ := ih
    rw [bitsToBytes_cons, encodeBytes, hk]
    have htke : ((b :: rest).take 8).length ≤ 8 := by
      simp [List.length_take]
    rw [byteOfBits_bits _ htke]
    by_cases hlen : 7 ≤ rest.length
    · have ht : ((b :: rest).take 8).length = 8 := by
        simp [List.length_take]
        omega
      rw [ht, Nat.sub_self, List.replicate_zero, List.append_nil]
      refine ⟨k, ?_⟩
      have hjoin : (b :: rest).take 8 ++ rest.drop 7 = b :: rest := by
        have hdrop : rest.drop 7 = (b :: rest).drop 8 := rfl
        rw [hdrop, List.take_append_drop]
      rw [← List.append_assoc, hjoin]
    · have ht : (b :: rest).take 8 = b :: rest := by
        apply List.take_of_length_le
        simp
        omega
      have hd : rest.drop 7 = [] := by
        apply List.drop_eq_nil_of_le
        omega
      refine ⟨(8 - ((b :: rest).take 8).length) + k, ?_⟩
      rw [hd, List.nil_append, List.replicate_add, ht, ← List.append_assoc]

theorem bitsToBytes_take (l : List Bool) :
    ∀ k, (bitsToBytes l).take k = bitsToBytes (l.take (8 * k)) := by
  induction l using bitsToBytes_ind with
  | h1 => simp [bitsToBytes_nil]
  | h2 b rest ih =>
    intro k
    cases k with
    | zero => simp [bitsToBytes_nil]
    | succ k =>
      rw [bitsToBytes_cons]
      have h8 : 8 * (k + 1) = (8 * k + 7) + 1 := by omega
      rw [h8, List.take_succ_cons, List.take_succ_cons, List.take_succ_cons,
        bitsToBytes_cons]
      simp only [List.cons.injEq]
      constructor
      · have hh : List.take 8 (b :: List.take (8 * k + 7) rest) =
            b :: List.take 7 rest := by
          rw [show (8 : Nat) = 7 + 1 from rfl, List.take_succ_cons, List.take_take,
            Nat.min_eq_left (by omega)]
        rw [hh]
      · rw [ih k]
        have hh : List.drop 7 (List.take (8 * k + 7) rest) =
            List.take (8 * k) (List.drop 7 rest) := by
          rw [List.drop_take]
          congr 1
        rw [hh]

theorem encodeBytes_length (bs : List Nat) :
    (encodeBytes bs).length = 8 * bs.length := by
  induction bs with
  | nil => rfl
  | cons b rest ih =>
    simp [encodeBytes, natToBits_length, ih]
    omega

theorem bitsToBytes_length (l : List Bool) :
    (bitsToBytes l).length = (l.length + 7) / 8 := by
  induction l using bitsToBytes_ind with
  | h1 => simp [bitsToBytes_nil]
  | h2 b rest ih =>
    rw [bitsToBytes_cons, List.length_cons, ih]
    simp only [List.length_drop, List.length_cons]
    omega

theorem encodeBytes_bitsToBytes_of_dvd (l : List Bool) (h : 8 ∣ l.length) :
    encodeBytes (bitsToBytes l) = l := by
  obtain ⟨k, hk⟩ := encodeBytes_bitsToBytes l
  have hlen := congrArg List.length hk
  rw [encodeBytes_length, bitsToBytes_length] at hlen
  simp only [List.length_append, List.length_replicate] at hlen
  obtain ⟨c, hc⟩ := h
  have hk0 : k = 0 := by omega
  rw [hk0, List.replicate_zero, List.append_nil] at hk
  exact hk

theorem keystream_length (key nonce : List Nat) (n : Nat) :
    (keystream key nonce n).length = n := by
  simp [keystream]

theorem natXor_cancel (b k : Nat) : Nat.xor (Nat.xor b k) k = b := by
  show b ^^^ k ^^^ k = b
  rw [Nat.xor_assoc, Nat.xor_self, Nat.xor_zero]

theorem xorBytes_xorBytes (body : List Nat) :
    ∀ ks, body.length ≤ ks.length → xorBytes (xorBytes body ks) ks = body := by
  induction body with
  | nil => intro ks h; simp [xorBytes]
  | cons b bs ih =>
    intro ks h
    cases ks with
    | nil => simp at h
    | cons k kk =>
      simp only [xorBytes, List.zipWith] at ih ⊢
      rw [natXor_cancel]
      simp only [List.cons.injEq, true_and]
      exact ih kk (by simpa using h)

theorem xorBytes_length (a b : List Nat) :
    (xorBytes a b).length = min a.length b.length := by
  simp [xorBytes]

theorem take_append_exact {α : Type} (a x : List α) :
    (a ++ x).take a.length = a := by
  induction a with
  | nil => rfl
  | cons y ys ih => simp [ih]

theorem drop_append_exact {α : Type} (a x : List α) :
    (a ++ x).drop a.length = x := by
  induction a with
  | nil => rfl
  | cons y ys ih => simp [ih]

theorem dcclEncrypt_take (key bs : List Nat) :
    (dcclEncrypt key bs).take DCCL_NUM_HEADER_BYTES =
      bs.take DCCL_NUM_HEADER_BYTES := by
  unfold dcclEncrypt
  split
  · rfl
  · by_cases h6 : DCCL_NUM_HEADER_BYTES ≤ bs.length
    · have ht : (bs.take DCCL_NUM_HEADER_BYTES).length = DCCL_NUM_HEADER_BYTES := by
        simp [List.length_take]
        omega
      nth_rewrite 1 [← ht]
      rw [take_append_exact]
    · have hd : bs.drop DCCL_NUM_HEADER_BYTES = [] := by
        apply List.drop_eq_nil_of_le
        omega
      rw [hd]
      simp [xorBytes, List.take_take]

theorem dcclEncrypt_drop (key bs : List Nat) (hk : key.isEmpty = false)
    (h6 : DCCL_NUM_HEADER_BYTES ≤ bs.length) :
    (dcclEncrypt key bs).drop DCCL_NUM_HEADER_BYTES =
      xorBytes (bs.drop DCCL_NUM_HEADER_BYTES)
        (keystream key (bs.take DCCL_NUM_HEADER_BYTES)
          (bs.drop DCCL_NUM_HEADER_BYTES).length) := by
  unfold dcclEncrypt
  rw [if_neg (by simp [hk])]
  have ht : (bs.take DCCL_NUM_HEADER_BYTES).length = DCCL_NUM_HEADER_BYTES := by
    simp [List.length_take]
    omega
  nth_rewrite 1 [← ht]
  rw [drop_append_exact]

theorem dcclDecrypt_dcclEncrypt (key bs : List Nat) :
    dcclDecrypt key (dcclEncrypt key bs) = bs := by
  by_cases hk : key.isEmpty
  · unfold dcclEncrypt dcclDecrypt
    rw [if_pos hk, if_pos hk]
  · have hk' : key.isEmpty = false := by simpa using hk
    by_cases h6 : DCCL_NUM_HEADER_BYTES ≤ bs.length
    · have htake := dcclEncrypt_take key bs
      have hdrop := dcclEncrypt_drop key bs hk' h6
      unfold dcclDecrypt
      rw [if_neg (by simp [hk'])]
      rw [htake, hdrop]
      have hxlen : (xorBytes (bs.drop DCCL_NUM_HEADER_BYTES)
          (keystream key (bs.take DCCL_NUM_HEADER_BYTES)
            (bs.drop DCCL_NUM_HEADER_BYTES).length)).length =
          (bs.drop DCCL_NUM_HEADER_BYTES).length := by
        rw [xorBytes_length, keystream_length]
        omega
      rw [hxlen, xorBytes_xorBytes _ _ (by rw [keystream_length])]
      exact List.take_append_drop _ bs
    · have hd : bs.drop DCCL_NUM_HEADER_BYTES = [] := by
        apply List.drop_eq_nil_of_le
        omega
      have ht : bs.take DCCL_NUM_HEADER_BYTES = bs := by
        apply List.take_of_length_le
        omega
      have henc : dcclEncrypt key bs = bs := by
        unfold dcclEncrypt
        rw [if_neg (by simp [hk]), hd]
        simp only [xorBytes, List.zipWith_nil_left, List.append_nil]
        exact ht
      have hdec : dcclDecrypt key bs = bs := by
        unfold dcclDecrypt
        rw [if_neg (by simp [hk]), hd]
        simp only [xorBytes, List.zipWith_nil_left, List.append_nil]
        exact ht
      rw [henc, hdec]

theorem lt_two_pow_bitsNeededAux :
    ∀ f m, m ≤ f → m < 2 ^ bitsNeededAux f m := by
  intro f
  induction f with
  | zero =>
    intro m hm
    interval_cases m
    simp [bitsNeededAux]
  | succ f ih =>
    intro m hm
    cases m with
    | zero => simp [bitsNeededAux]
    | succ k =>
      rw [bitsNeededAux]
      have hih := ih ((k + 1) / 2) (by omega)
      rw [pow_succ]
      omega

theorem lt_two_pow_bitsNeeded {k m : Nat} (h : k ≤ m) : k < 2 ^ bitsNeeded m :=
  lt_of_le_of_lt h (lt_two_pow_bitsNeededAux m m le_rfl)

theorem decodeBytes_encodeBytes (s : List Nat) (rest : List Bool)
    (hs : ∀ b ∈ s, b < 256) :
    decodeBytes s.length (encodeBytes s ++ rest) = some (s, rest) := by
  induction s generalizing rest with
  | nil => rfl
  | cons b bs ih =>
    have hb : b < 256 := hs b (by simp)
    rw [List.length_cons, decodeBytes]
    rw [encodeBytes, List.append_assoc, popBits_natToBits]
    have hmod : b % 2 ^ 8 = b := Nat.mod_eq_of_lt hb
    rw [hmod]
    simp only [Option.bind_eq_bind, Option.some_bind]
    rw [ih rest (fun x hx => hs x (by simp [hx]))]
    rfl

theorem decodeBytes_encodeBytes_len (s : List Nat) (n : Nat) (rest : List Bool)
    (hn : s.length = n) (hs : ∀ b ∈ s, b < 256) :
    decodeBytes n (encodeBytes s ++ rest) = some (s, rest) := by
  subst hn
  exact decodeBytes_encodeBytes s rest hs

theorem pad_length (s : List Nat) (n : Nat) :
    (s.take n ++ List.replicate (n - s.length) 0).length = n := by
  simp [List.length_take]
  omega

theorem pad_lt256 {s : List Nat} (n : Nat) (hs : ∀ b ∈ s, b < 256) :
    ∀ b ∈ s.take n ++ List.replicate (n - s.length) 0, b < 256 := by
  intro b hb
  rcases List.mem_append.mp hb with h | h
  · exact hs b (List.take_subset _ _ h)
  · rw [List.eq_of_mem_replicate h]
    omega

theorem roundDiv_eq (n : ℤ) (d : ℕ) (hd : 0 < d) :
    roundDiv n d = round ((n : ℚ) / (d : ℚ)) := by
  have hdq : ((d : ℚ)) ≠ 0 := Nat.cast_ne_zero.mpr (by omega)
  have h2 : ((2 * d : ℕ) : ℚ) = 2 * (d : ℚ) := by push_cast; ring
  have harg : (n : ℚ) / (d : ℚ) + 1 / 2 =
      (((2 * n + (d : ℤ)) : ℤ) : ℚ) / ((2 * d : ℕ) : ℚ) := by
    rw [h2]
    push_cast
    field_simp
    ring
  rw [round_eq, harg, Rat.floor_intCast_div_natCast, roundDiv]
  congr 1

theorem dequantNum_eq (vmin prec : ℚ) (q : ℕ) :
    dequantNum vmin prec q = vmin + (q : ℚ) * prec := by
  have hv : ((vmin.den : ℚ)) ≠ 0 := Nat.cast_ne_zero.mpr vmin.den_nz
  have hp : ((prec.den : ℚ)) ≠ 0 := Nat.cast_ne_zero.mpr prec.den_nz
  rw [dequantNum, Rat.mkRat_eq_divInt, Rat.divInt_eq_div]
  conv_rhs => rw [← Rat.num_div_den vmin, ← Rat.num_div_den prec]
  push_cast
  field_simp

theorem quantNum_eq (vmin prec : ℚ) (qmax : Nat) (x : ℚ) (hp : 0 < prec) :
    quantNum vmin prec qmax x = min (round ((x - vmin) / prec)).toNat qmax := by
  have hpnum : (0:ℤ) < prec.num := Rat.num_pos.mpr hp
  have hD : 0 < x.den * vmin.den * prec.num.toNat := by
    have h1 := x.pos
    have h2 := vmin.pos
    have h3 : 0 < prec.num.toNat := by omega
    exact Nat.mul_pos (Nat.mul_pos h1 h2) h3
  have hxd : ((x.den : ℚ)) ≠ 0 := Nat.cast_ne_zero.mpr x.den_nz
  have hvd : ((vmin.den : ℚ)) ≠ 0 := Nat.cast_ne_zero.mpr vmin.den_nz
  have hpd : ((prec.den : ℚ)) ≠ 0 := Nat.cast_ne_zero.mpr prec.den_nz
  have hpn : ((prec.num : ℚ)) ≠ 0 := by
    exact_mod_cast Int.cast_ne_zero.mpr (ne_of_gt hpnum)
  have htn : ((prec.num.toNat : ℤ)) = prec.num := Int.toNat_of_nonneg hpnum.le
  have htnq : ((prec.num.toNat : ℕ) : ℚ) = ((prec.num : ℤ) : ℚ) := by
    rw [← htn]
    norm_cast
  have harg : ((((x.num * vmin.den - vmin.num * x.den) * prec.den : ℤ)) : ℚ) /
      ((x.den * vmin.den * prec.num.toNat : ℕ) : ℚ) = (x - vmin) / prec := by
    conv_rhs => rw [← Rat.num_div_den x, ← Rat.num_div_den vmin,
      ← Rat.num_div_den prec]
    push_cast [htnq]
    field_simp
    ring
  rw [quantNum, roundDiv_eq _ _ hD, harg]

theorem ceilDiv_eq (n : ℤ) (d : ℕ) (hd : 0 < d) :
    ceilDiv n d = ⌈(n : ℚ) / (d : ℚ)⌉ := by
  have hneg : -((n : ℚ) / (d : ℚ)) = ((-n : ℤ) : ℚ) / ((d : ℕ) : ℚ) := by
    push_cast
    ring
  rw [ceilDiv, ← neg_neg ⌈(n : ℚ) / (d : ℚ)⌉, ← Int.floor_neg, hneg,
    Rat.floor_intCast_div_natCast]

theorem qmaxOf_eq (vmin vmax prec : ℚ) (hp : 0 < prec) :
    qmaxOf vmin vmax prec = (⌈(vmax - vmin) / prec⌉).toNat := by
  have hpnum : (0:ℤ) < prec.num := Rat.num_pos.mpr hp
  have hD : 0 < vmax.den * vmin.den * prec.num.toNat := by
    have h1 := vmax.pos
    have h2 := vmin.pos
    have h3 : 0 < prec.num.toNat := by omega
    exact Nat.mul_pos (Nat.mul_pos h1 h2) h3
  have hvd : ((vmax.den : ℚ)) ≠ 0 := Nat.cast_ne_zero.mpr vmax.den_nz
  have hvd2 : ((vmin.den : ℚ)) ≠ 0 := Nat.cast_ne_zero.mpr vmin.den_nz
  have hpd : ((prec.den : ℚ)) ≠ 0 := Nat.cast_ne_zero.mpr prec.den_nz
  have hpn : ((prec.num : ℚ)) ≠ 0 := by
    exact_mod_cast Int.cast_ne_zero.mpr (ne_of_gt hpnum)
  have htn : ((prec.num.toNat : ℤ)) = prec.num := Int.toNat_of_nonneg hpnum.le
  have htnq : ((prec.num.toNat : ℕ) : ℚ) = ((prec.num : ℤ) : ℚ) := by
    rw [← htn]
    norm_cast
  have harg :
      ((((vmax.num * vmin.den - vmin.num * vmax.den) * prec.den : ℤ)) : ℚ) /
      ((vmax.den * vmin.den * prec.num.toNat : ℕ) : ℚ) =
        (vmax - vmin) / prec := by
    conv_rhs => rw [← Rat.num_div_den vmax, ← Rat.num_div_den vmin,
      ← Rat.num_div_den prec]
    push_cast [htnq]
    field_simp
    ring
  rw [qmaxOf, ceilDiv_eq _ _ hD, harg]

theorem quantNum_dequantNum (vmin prec : ℚ) (qmax q : Nat) (hp : 0 < prec)
    (hq : q ≤ qmax) :
    quantNum vmin prec qmax (dequantNum vmin prec q) = q := by
  rw [quantNum_eq _ _ _ _ hp, dequantNum_eq, add_sub_cancel_left,
    mul_div_cancel_right₀ _ (ne_of_gt hp), round_natCast, Int.toNat_natCast,
    Nat.min_eq_left hq]

theorem quantNum_le (vmin prec : ℚ) (qmax : Nat) (x : ℚ) :
    quantNum vmin prec qmax x ≤ qmax :=
  Nat.min_le_right _ _

theorem decodeScalarReq_enc (t : ScalarType) (v : ScalarValue)
    (rest : List Bool) (h : scalarOk t v = true) :
    decodeScalarReq t (encodeScalarReq t v ++ rest) =
      some (normScalar t v, rest) := by
  cases t with
  | snum vmin vmax prec =>
    cases v with
    | vnum x =>
      rw [encodeScalarReq, decodeScalarReq, popBits_natToBits,
        Nat.mod_eq_of_lt (lt_two_pow_bitsNeeded (quantNum_le vmin prec _ x))]
      rfl
    | vbool b => simp [scalarOk] at h
    | venum k => simp [scalarOk] at h
    | vstr s => simp [scalarOk] at h
    | vbytes s => simp [scalarOk] at h
  | sbool =>
    cases v with
    | vnum x => simp [scalarOk] at h
    | vbool b => rfl
    | venum k => simp [scalarOk] at h
    | vstr s => simp [scalarOk] at h
    | vbytes s => simp [scalarOk] at h
  | senum n =>
    cases v with
    | vnum x => simp [scalarOk] at h
    | vbool b => simp [scalarOk] at h
    | venum k =>
      simp only [scalarOk, decide_eq_true_eq] at h
      rw [encodeScalarReq, decodeScalarReq, popBits_natToBits,
        Nat.mod_eq_of_lt (lt_two_pow_bitsNeeded (by omega : k ≤ n - 1))]
      simp only [Option.bind_eq_bind, Option.some_bind]
      rw [if_pos h]
      rfl
    | vstr s => simp [scalarOk] at h
    | vbytes s => simp [scalarOk] at h
  | sstr maxLen =>
    cases v with
    | vnum x => simp [scalarOk] at h
    | vbool b => simp [scalarOk] at h
    | venum k => simp [scalarOk] at h
    | vstr s =>
      simp only [scalarOk, List.all_eq_true, decide_eq_true_eq] at h
      rw [encodeScalarReq, decodeScalarReq, List.append_assoc, popBits_natToBits]
      have hlen : (s.take maxLen).length ≤ maxLen := by
        simp [List.length_take]
      rw [Nat.mod_eq_of_lt (lt_two_pow_bitsNeeded hlen)]
      simp only [Option.bind_eq_bind, Option.some_bind]
      rw [decodeBytes_encodeBytes _ rest
        (fun x hx => h x (List.take_subset _ _ hx))]
      rfl
    | vbytes s => simp [scalarOk] at h
  | sbytes maxLen =>
    cases v with
    | vnum x => simp [scalarOk] at h
    | vbool b => simp [scalarOk] at h
    | venum k => simp [scalarOk] at h
    | vstr s => simp [scalarOk] at h
    | vbytes s =>
      simp only [scalarOk, List.all_eq_true, decide_eq_true_eq] at h
      rw [encodeScalarReq, decodeScalarReq,
        decodeBytes_encodeBytes_len _ maxLen rest (pad_length s maxLen)
          (pad_lt256 maxLen h)]
      rfl

theorem decodeScalarOpt_enc_none (t : ScalarType) (rest : List Bool) :
    decodeScalarOpt t (encodeScalarOpt t none ++ rest) = some (none, rest) := by
  cases t with
  | snum vmin vmax prec =>
    rw [encodeScalarOpt, decodeScalarOpt, popBits_natToBits, Nat.zero_mod]
    rfl
  | sbool =>
    rw [encodeScalarOpt, decodeScalarOpt, popBits_natToBits, Nat.zero_mod]
    rfl
  | senum n =>
    rw [encodeScalarOpt, decodeScalarOpt, popBits_natToBits, Nat.zero_mod]
    rfl
  | sstr maxLen =>
    rw [encodeScalarOpt, decodeScalarOpt, popBits_natToBits, Nat.zero_mod]
    rfl
  | sbytes maxLen =>
    rw [encodeScalarOpt, decodeScalarOpt, popBits_natToBits, Nat.zero_mod]
    rfl

theorem decodeScalarOpt_enc_some (t : ScalarType) (v : ScalarValue)
    (rest : List Bool) (h : scalarOk t v = true) :
    decodeScalarOpt t (encodeScalarOpt t (some v) ++ rest) =
      some (some (normScalar t v), rest) := by
  cases t with
  | snum vmin vmax prec =>
    cases v with
    | vnum x =>
      rw [encodeScalarOpt, decodeScalarOpt, popBits_natToBits,
        Nat.mod_eq_of_lt (lt_two_pow_bitsNeeded
          (by exact Nat.succ_le_succ (quantNum_le vmin prec _ x)))]
      rfl
    | vbool b => simp [scalarOk] at h
    | venum k => simp [scalarOk] at h
    | vstr s => simp [scalarOk] at h
    | vbytes s => simp [scalarOk] at h
  | sbool =>
    cases v with
    | vnum x => simp [scalarOk] at h
    | vbool b =>
      cases b with
      | false =>
        rw [encodeScalarOpt, decodeScalarOpt, popBits_natToBits]
        rfl
      | true =>
        rw [encodeScalarOpt, decodeScalarOpt, popBits_natToBits]
        rfl
    | venum k => simp [scalarOk] at h
    | vstr s => simp [scalarOk] at h
    | vbytes s => simp [scalarOk] at h
  | senum n =>
    cases v with
    | vnum x => simp [scalarOk] at h
    | vbool b => simp [scalarOk] at h
    | venum k =>
      simp only [scalarOk, decide_eq_true_eq] at h
      rw [encodeScalarOpt, decodeScalarOpt, popBits_natToBits,
        Nat.mod_eq_of_lt (lt_two_pow_bitsNeeded (by omega : k + 1 ≤ n))]
      simp only [Option.bind_eq_bind, Option.some_bind]
      rw [if_pos h]
      rfl
    | vstr s => simp [scalarOk] at h
    | vbytes s => simp [scalarOk] at h
  | sstr maxLen =>
    rw [encodeScalarOpt, decodeScalarOpt, List.append_assoc, popBits_natToBits]
    simp only [Option.bind_eq_bind, Option.some_bind]
    rw [Nat.mod_eq_of_lt (show (1:Nat) < 2 ^ 1 by norm_num), if_pos rfl,
      decodeScalarReq_enc _ v rest h]
    rfl
  | sbytes maxLen =>
    rw [encodeScalarOpt, decodeScalarOpt, List.append_assoc, popBits_natToBits]
    simp only [Option.bind_eq_bind, Option.some_bind]
    rw [Nat.mod_eq_of_lt (show (1:Nat) < 2 ^ 1 by norm_num), if_pos rfl,
      decodeScalarReq_enc _ v rest h]
    rfl

theorem decodeScalarList_enc (t : ScalarType) (vs : List ScalarValue)
    (rest : List Bool) (h : ∀ v ∈ vs, scalarOk t v = true) :
    decodeScalarList t vs.length (encodeScalarList t vs ++ rest) =
      some (vs.map (normScalar t), rest) := by
  induction vs generalizing rest with
  | nil => rfl
  | cons v vv ih =>
    rw [List.length_cons, decodeScalarList, encodeScalarList, List.append_assoc,
      decodeScalarReq_enc t v _ (h v (by simp))]
    simp only [Option.bind_eq_bind, Option.some_bind]
    rw [ih rest (fun x hx => h x (by simp [hx]))]
    rfl

theorem encodeScalarReq_norm (t : ScalarType) (v : ScalarValue)
    (ht : scalarTypeOk t = true) :
    encodeScalarReq t (normScalar t v) = encodeScalarReq t v := by
  cases t with
  | snum vmin vmax prec =>
    cases v with
    | vnum x =>
      have hp : (0:ℚ) < prec := by
        simp only [scalarTypeOk, Bool.and_eq_true, decide_eq_true_eq] at ht
        exact ht.1
      simp only [normScalar, encodeScalarReq]
      rw [quantNum_dequantNum vmin prec _ _ hp (quantNum_le vmin prec _ x)]
    | vbool b => rfl
    | venum k => rfl
    | vstr s => rfl
    | vbytes s => rfl
  | sbool => cases v <;> rfl
  | senum n => cases v <;> rfl
  | sstr maxLen =>
    cases v with
    | vnum x => rfl
    | vbool b => rfl
    | venum k => rfl
    | vstr s => simp only [normScalar, encodeScalarReq, List.take_take,
        Nat.min_self, List.length_take]
    | vbytes s => rfl
  | sbytes maxLen =>
    cases v with
    | vnum x => rfl
    | vbool b => rfl
    | venum k => rfl
    | vstr s => rfl
    | vbytes s =>
      simp only [normScalar, encodeScalarReq]
      rw [List.take_of_length_le (le_of_eq (pad_length s maxLen)),
        pad_length, Nat.sub_self]
      simp

theorem encodeScalarOpt_norm (t : ScalarType) (v : ScalarValue)
    (ht : scalarTypeOk t = true) :
    encodeScalarOpt t (some (normScalar t v)) = encodeScalarOpt t (some v) := by
  cases t with
  | snum vmin vmax prec =>
    cases v with
    | vnum x =>
      have hp : (0:ℚ) < prec := by
        simp only [scalarTypeOk, Bool.and_eq_true, decide_eq_true_eq] at ht
        exact ht.1
      simp only [normScalar, encodeScalarOpt]
      rw [quantNum_dequantNum vmin prec _ _ hp (quantNum_le vmin prec _ x)]
    | vbool b => rfl
    | venum k => rfl
    | vstr s => rfl
    | vbytes s => rfl
  | sbool => cases v <;> rfl
  | senum n => cases v <;> rfl
  | sstr maxLen =>
    simp only [encodeScalarOpt, encodeScalarReq_norm _ v ht]
  | sbytes maxLen =>
    simp only [encodeScalarOpt, encodeScalarReq_norm _ v ht]

theorem encodeScalarList_norm (t : ScalarType) (vs : List ScalarValue)
    (ht : scalarTypeOk t = true) :
    encodeScalarList t (vs.map (normScalar t)) = encodeScalarList t vs := by
  induction vs with
  | nil => rfl
  | cons v vv ih =>
    simp only [List.map_cons, encodeScalarList, encodeScalarReq_norm _ _ ht, ih]

theorem normMsgListN_nil (sub : Schema) (n : Nat) :
    normMsgListN sub [] n = [] := rfl

theorem normMsgListN_zero (sub : Schema) (m : DCCLMsg) (ms : List DCCLMsg) :
    normMsgListN sub (m :: ms) 0 = [] := rfl

theorem normMsgListN_succ (sub : Schema) (m : DCCLMsg) (ms : List DCCLMsg)
    (n : Nat) :
    normMsgListN sub (m :: ms) (n + 1) =
      normMsg sub m :: normMsgListN sub ms n := rfl

theorem normMsgListN_length (sub : Schema) (ms : List DCCLMsg) :
    ∀ n : Nat, (normMsgListN sub ms n).length = min n ms.length := by
  induction ms with
  | nil =>
    intro n
    rw [normMsgListN_nil]
    simp
  | cons m l ih =>
    intro n
    cases n with
    | zero =>
      rw [normMsgListN_zero]
      simp
    | succ k =>
      rw [normMsgListN_succ, List.length_cons, List.length_cons, ih k,
        Nat.succ_min_succ]

theorem decodeMsgListAux_zero (dec : List Bool → Option (DCCLMsg × List Bool))
    (l : List Bool) : decodeMsgListAux dec 0 l = some ([], l) := rfl

theorem decodeMsgListAux_succ (dec : List Bool → Option (DCCLMsg × List Bool))
    (n : Nat) (l : List Bool) :
    decodeMsgListAux dec (n + 1) l =
      (dec l).bind (fun p =>
        (decodeMsgListAux dec n p.2).bind (fun q =>
          some (p.1 :: q.1, q.2))) := rfl

/-- Simultaneous structural induction over the nested value family:
field values, messages (lists of field values) and repeated-message
blocks (lists of messages), by strong induction on `sizeOf`. -/
theorem fieldValueInd (mf : FieldValue → Prop) (mm : List FieldValue → Prop)
    (ml : List (List FieldValue) → Prop)
    (hreq : ∀ v, mf (.vrequired v))
    (hnone : mf .vopt_none)
    (hsome : ∀ v, mf (.vopt_some v))
    (hrep : ∀ vs, mf (.vrepeated vs))
    (hmreq : ∀ m, mm m → mf (.vmsg_required m))
    (hmnone : mf .vmsg_none)
    (hmsome : ∀ m, mm m → mf (.vmsg_some m))
    (hmrep : ∀ ms, ml ms → mf (.vmsg_repeated ms))
    (hnil : mm [])
    (hcons : ∀ v m, mf v → mm m → mm (v :: m))
    (hlnil : ml [])
    (hlcons : ∀ m ms, mm m → ml ms → ml (m :: ms)) :
    (∀ v, mf v) ∧ (∀ m, mm m) ∧ (∀ ms, ml ms) := by
  have key : ∀ n : Nat,
      (∀ v : FieldValue, sizeOf v ≤ n → mf v) ∧
      (∀ m : List FieldValue, sizeOf m ≤ n → mm m) ∧
      (∀ ms : List (List FieldValue), sizeOf ms ≤ n → ml ms) := by
    intro n
    induction n with
    | zero =>
      refine ⟨?_, ?_, ?_⟩
      · intro v hv
        cases v <;> (simp at hv)
      · intro m hm
        cases m <;> (simp at hm)
      · intro ms hms
        cases ms <;> (simp at hms)
    | succ n ih =>
      obtain ⟨ihf, ihm, ihl⟩ := ih
      refine ⟨?_, ?_, ?_⟩
      · intro v hv
        cases v with
        | vrequired v => exact hreq v
        | vopt_none => exact hnone
        | vopt_some v => exact hsome v
        | vrepeated vs => exact hrep vs
        | vmsg_required m =>
          refine hmreq m (ihm m ?_)
          simp at hv
          omega
        | vmsg_none => exact hmnone
        | vmsg_some m =>
          refine hmsome m (ihm m ?_)
          simp at hv
          omega
        | vmsg_repeated ms =>
          refine hmrep ms (ihl ms ?_)
          simp at hv
          omega
      · intro m hm
        cases m with
        | nil => exact hnil
        | cons v l =>
          simp at hm
          exact hcons v l (ihf v (by omega)) (ihm l (by omega))
      · intro ms hms
        cases ms with
        | nil => exact hlnil
        | cons m l =>
          simp at hms
          exact hlcons m l (ihm m (by omega)) (ihl l (by omega))
  exact ⟨fun v => (key (sizeOf v)).1 v le_rfl,
    fun m => (key (sizeOf m)).2.1 m le_rfl,
    fun ms => (key (sizeOf ms)).2.2 ms le_rfl⟩

/-- The joint round-trip statement over the three mutual levels: under
well-typedness, decoding the encoding yields the normalized value and
leaves the rest of the stream untouched. -/
theorem codec_round_trip :
    (∀ v : FieldValue, ∀ (ft : FieldType) (rest : List Bool),
      fieldOk ft v = true →
      decodeField ft (encodeField ft v ++ rest) =
        some (normField ft v, rest)) ∧
    (∀ m : DCCLMsg, ∀ (sch : Schema) (rest : List Bool),
      wellTyped sch m = true →
      decodeBody sch (encodeBody sch m ++ rest) =
        some (normMsg sch m, rest)) ∧
    (∀ ms : List DCCLMsg, ∀ (sub : Schema) (n : Nat) (rest : List Bool),
      msgListOk sub ms = true →
      decodeMsgListAux (decodeBody sub) (min n ms.length)
        (encodeMsgListN sub ms n ++ rest) =
        some (normMsgListN sub ms n, rest)) := by
  refine fieldValueInd
    (fun v => ∀ (ft : FieldType) (rest : List Bool),
      fieldOk ft v = true →
      decodeField ft (encodeField ft v ++ rest) =
        some (normField ft v, rest))
    (fun m => ∀ (sch : Schema) (rest : List Bool),
      wellTyped sch m = true →
      decodeBody sch (encodeBody sch m ++ rest) =
        some (normMsg sch m, rest))
    (fun ms => ∀ (sub : Schema) (n : Nat) (rest : List Bool),
      msgListOk sub ms = true →
      decodeMsgListAux (decodeBody sub) (min n ms.length)
        (encodeMsgListN sub ms n ++ rest) =
        some (normMsgListN sub ms n, rest))
    ?_ ?_ ?_ ?_ ?_ ?_ ?_ ?_ ?_ ?_ ?_ ?_
  · intro sv ft rest hok
    cases ft with
    | frequired t =>
      simp only [fieldOk] at hok
      simp only [encodeField, decodeField, normField]
      rw [decodeScalarReq_enc t sv rest hok]
      rfl
    | foptional t => simp [fieldOk] at hok
    | frepeated t maxc => simp [fieldOk] at hok
    | fmsg_required sub => simp [fieldOk] at hok
    | fmsg_optional sub => simp [fieldOk] at hok
    | fmsg_repeated sub maxc => simp [fieldOk] at hok
  · intro ft rest hok
    cases ft with
    | frequired t => simp [fieldOk] at hok
    | foptional t =>
      simp only [encodeField, decodeField, normField]
      rw [decodeScalarOpt_enc_none t rest]
      rfl
    | frepeated t maxc => simp [fieldOk] at hok
    | fmsg_required sub => simp [fieldOk] at hok
    | fmsg_optional sub => simp [fieldOk] at hok
    | fmsg_repeated sub maxc => simp [fieldOk] at hok
  · intro sv ft rest hok
    cases ft with
    | frequired t => simp [fieldOk] at hok
    | foptional t =>
      simp only [fieldOk] at hok
      simp only [encodeField, decodeField, normField]
      rw [decodeScalarOpt_enc_some t sv rest hok]
      rfl
    | frepeated t maxc => simp [fieldOk] at hok
    | fmsg_required sub => simp [fieldOk] at hok
    | fmsg_optional sub => simp [fieldOk] at hok
    | fmsg_repeated sub maxc => simp [fieldOk] at hok
  · intro vs ft rest hok
    cases ft with
    | frequired t => simp [fieldOk] at hok
    | foptional t => simp [fieldOk] at hok
    | frepeated t maxc =>
      simp only [fieldOk, List.all_eq_true] at hok
      simp only [encodeField, decodeField, normField]
      rw [List.append_assoc, popBits_natToBits]
      have hlen : (vs.take maxc).length ≤ maxc := by
        simp [List.length_take]
      rw [Nat.mod_eq_of_lt (lt_two_pow_bitsNeeded hlen)]
      simp only [Option.bind_eq_bind, Option.some_bind]
      rw [decodeScalarList_enc t _ rest
        (fun x hx => hok x (List.take_subset _ _ hx))]
      rfl
    | fmsg_required sub => simp [fieldOk] at hok
    | fmsg_optional sub => simp [fieldOk] at hok
    | fmsg_repeated sub maxc => simp [fieldOk] at hok
  · intro m hm ft rest hok
    cases ft with
    | frequired t => simp [fieldOk] at hok
    | foptional t => simp [fieldOk] at hok
    | frepeated t maxc => simp [fieldOk] at hok
    | fmsg_required sub =>
      simp only [fieldOk] at hok
      simp only [encodeField, decodeField, normField]
      rw [hm sub rest hok]
      rfl
    | fmsg_optional sub => simp [fieldOk] at hok
    | fmsg_repeated sub maxc => simp [fieldOk] at hok
  · intro ft rest hok
    cases ft with
    | frequired t => simp [fieldOk] at hok
    | foptional t => simp [fieldOk] at hok
    | frepeated t maxc => simp [fieldOk] at hok
    | fmsg_required sub => simp [fieldOk] at hok
    | fmsg_optional sub =>
      simp only [encodeField, decodeField, normField]
      rw [popBits_natToBits]
      rfl
    | fmsg_repeated sub maxc => simp [fieldOk] at hok
  · intro m hm ft rest hok
    cases ft with
    | frequired t => simp [fieldOk] at hok
    | foptional t => simp [fieldOk] at hok
    | frepeated t maxc => simp [fieldOk] at hok
    | fmsg_required sub => simp [fieldOk] at hok
    | fmsg_optional sub =>
      simp only [fieldOk] at hok
      simp only [encodeField, decodeField, normField]
      rw [List.append_assoc, popBits_natToBits]
      simp only [Option.bind_eq_bind, Option.some_bind]
      rw [Nat.mod_eq_of_lt (show (1:Nat) < 2 ^ 1 by norm_num), if_pos rfl,
        hm sub rest hok]
      rfl
    | fmsg_repeated sub maxc => simp [fieldOk] at hok
  · intro ms hl ft rest hok
    cases ft with
    | frequired t => simp [fieldOk] at hok
    | foptional t => simp [fieldOk] at hok
    | frepeated t maxc => simp [fieldOk] at hok
    | fmsg_required sub => simp [fieldOk] at hok
    | fmsg_optional sub => simp [fieldOk] at hok
    | fmsg_repeated sub maxc =>
      simp only [fieldOk] at hok
      simp only [encodeField, decodeField, normField]
      rw [List.append_assoc, popBits_natToBits,
        Nat.mod_eq_of_lt (lt_two_pow_bitsNeeded (Nat.min_le_left maxc _))]
      simp only [Option.bind_eq_bind, Option.some_bind]
      rw [hl sub maxc rest hok]
      rfl
  · intro sch rest h
    cases sch with
    | nil => rfl
    | cons f s => simp [wellTyped] at h
  · intro v m hv hm sch rest h
    cases sch with
    | nil => simp [wellTyped] at h
    | cons f s =>
      simp only [wellTyped, Bool.and_eq_true] at h
      simp only [encodeBody, decodeBody]
      rw [List.append_assoc, hv f _ h.1]
      simp only [Option.bind_eq_bind, Option.some_bind]
      rw [hm s rest h.2]
      rfl
  · intro sub n rest h
    simp only [List.length_nil, Nat.min_zero]
    rfl
  · intro m l hm hl sub n rest h
    simp only [msgListOk, Bool.and_eq_true] at h
    cases n with
    | zero =>
      rw [Nat.zero_min]
      rfl
    | succ k =>
      rw [List.length_cons, Nat.succ_min_succ]
      rw [show encodeMsgListN sub (m :: l) (k + 1) =
        encodeBody sub m ++ encodeMsgListN sub l k from rfl]
      rw [List.append_assoc, decodeMsgListAux_succ, hm sub _ h.1]
      simp only [Option.bind_eq_bind, Option.some_bind]
      rw [hl sub k rest h.2]
      rw [normMsgListN_succ]
      rfl

theorem decodeBody_encodeBody (sch : Schema) (m : DCCLMsg) (rest : List Bool)
    (h : wellTyped sch m = true) :
    decodeBody sch (encodeBody sch m ++ rest) = some (normMsg sch m, rest) :=
  codec_round_trip.2.1 m sch rest h

/-- The joint re-serialization statement: under a valid schema, the
normalized value encodes to exactly the bits of the original value. -/
theorem encode_norm_all :
    (∀ v : FieldValue, ∀ ft : FieldType, fieldTypeOk ft = true →
      encodeField ft (normField ft v) = encodeField ft v) ∧
    (∀ m : DCCLMsg, ∀ sch : Schema, schemaOk sch = true →
      encodeBody sch (normMsg sch m) = encodeBody sch m) ∧
    (∀ ms : List DCCLMsg, ∀ (sub : Schema) (n : Nat), schemaOk sub = true →
      encodeMsgListN sub (normMsgListN sub ms n) n =
        encodeMsgListN sub ms n) := by
  refine fieldValueInd
    (fun v => ∀ ft : FieldType, fieldTypeOk ft = true →
      encodeField ft (normField ft v) = encodeField ft v)
    (fun m => ∀ sch : Schema, schemaOk sch = true →
      encodeBody sch (normMsg sch m) = encodeBody sch m)
    (fun ms => ∀ (sub : Schema) (n : Nat), schemaOk sub = true →
      encodeMsgListN sub (normMsgListN sub ms n) n = encodeMsgListN sub ms n)
    ?_ ?_ ?_ ?_ ?_ ?_ ?_ ?_ ?_ ?_ ?_ ?_
  · intro sv ft ht
    cases ft with
    | frequired t =>
      simp only [fieldTypeOk] at ht
      simp only [normField, encodeField]
      rw [encodeScalarReq_norm t sv ht]
    | foptional t => rfl
    | frepeated t maxc => rfl
    | fmsg_required sub => rfl
    | fmsg_optional sub => rfl
    | fmsg_repeated sub maxc => rfl
  · intro ft ht
    cases ft <;> rfl
  · intro sv ft ht
    cases ft with
    | frequired t => rfl
    | foptional t =>
      simp only [fieldTypeOk] at ht
      simp only [normField, encodeField]
      rw [encodeScalarOpt_norm t sv ht]
    | frepeated t maxc => rfl
    | fmsg_required sub => rfl
    | fmsg_optional sub => rfl
    | fmsg_repeated sub maxc => rfl
  · intro vs ft ht
    cases ft with
    | frequired t => rfl
    | foptional t => rfl
    | frepeated t maxc =>
      simp only [fieldTypeOk] at ht
      simp only [normField, encodeField]
      have hlen : ((vs.take maxc).map (normScalar t)).length ≤ maxc := by
        simp [List.length_take]
      rw [List.take_of_length_le hlen, List.length_map,
        encodeScalarList_norm t _ ht]
    | fmsg_required sub => rfl
    | fmsg_optional sub => rfl
    | fmsg_repeated sub maxc => rfl
  · intro m hm ft ht
    cases ft with
    | frequired t => rfl
    | foptional t => rfl
    | frepeated t maxc => rfl
    | fmsg_required sub =>
      simp only [fieldTypeOk] at ht
      simp only [normField, encodeField]
      rw [hm sub ht]
    | fmsg_optional sub => rfl
    | fmsg_repeated sub maxc => rfl
  · intro ft ht
    cases ft <;> rfl
  · intro m hm ft ht
    cases ft with
    | frequired t => rfl
    | foptional t => rfl
    | frepeated t maxc => rfl
    | fmsg_required sub => rfl
    | fmsg_optional sub =>
      simp only [fieldTypeOk] at ht
      simp only [normField, encodeField]
      rw [hm sub ht]
    | fmsg_repeated sub maxc => rfl
  · intro ms hl ft ht
    cases ft with
    | frequired t => rfl
    | foptional t => rfl
    | frepeated t maxc => rfl
    | fmsg_required sub => rfl
    | fmsg_optional sub => rfl
    | fmsg_repeated sub maxc =>
      simp only [fieldTypeOk] at ht
      simp only [normField, encodeField]
      rw [normMsgListN_length, hl sub maxc ht,
        show min maxc (min maxc ms.length) = min maxc ms.length from by omega]
  · intro sch ht
    cases sch <;> rfl
  · intro v m hv hm sch ht
    cases sch with
    | nil => rfl
    | cons f s =>
      simp only [schemaOk, Bool.and_eq_true] at ht
      rw [show normMsg (f :: s) (v :: m) = normField f v :: normMsg s m
        from rfl]
      rw [show encodeBody (f :: s) (normField f v :: normMsg s m) =
        encodeField f (normField f v) ++ encodeBody s (normMsg s m) from rfl]
      rw [hv f ht.1, hm s ht.2]
      rfl
  · intro sub n ht
    rw [normMsgListN_nil]
  · intro m l hm hl sub n ht
    cases n with
    | zero => rfl
    | succ k =>
      rw [normMsgListN_succ]
      rw [show encodeMsgListN sub (normMsg sub m :: normMsgListN sub l k)
          (k + 1) =
        encodeBody sub (normMsg sub m) ++
          encodeMsgListN sub (normMsgListN sub l k) k from rfl]
      rw [hm sub ht, hl sub k ht]
      rfl

theorem encodeBody_normMsg (sch : Schema) (m : DCCLMsg)
    (h : schemaOk sch = true) :
    encodeBody sch (normMsg sch m) = encodeBody sch m :=
  encode_norm_all.2.1 m sch h

theorem dcclEncrypt_nil_key (bs : List Nat) : dcclEncrypt [] bs = bs := by
  simp [dcclEncrypt]

theorem sha256_isEmpty (p : List Nat) : (sha256 p).isEmpty = false := by
  have h : (sha256 p).length = 32 := by simp [sha256]
  cases hs : sha256 p with
  | nil => rw [hs] at h; simp at h
  | cons a l => rfl

theorem xorBytes_ne (body : List Nat) :
    ∀ ks i, i < body.length → ks.get? i ≠ some 0 → xorBytes body ks ≠ body := by
  induction body with
  | nil =>
    intro ks i hi
    simp at hi
  | cons b bs ih =>
    intro ks i hi hks
    cases ks with
    | nil => simp [xorBytes]
    | cons k kk =>
      cases i with
      | zero =>
        have hk0 : k ≠ 0 := by simpa using hks
        show Nat.xor b k :: xorBytes bs kk ≠ b :: bs
        intro hEq
        have h1 : Nat.xor b k = b := (List.cons.inj hEq).1
        apply hk0
        have hxk : Nat.xor b (Nat.xor b k) = k := by
          show b ^^^ (b ^^^ k) = k
          rw [← Nat.xor_assoc, Nat.xor_self, Nat.zero_xor]
        rw [← hxk, h1]
        show b ^^^ b = 0
        rw [Nat.xor_self]
      | succ j =>
        show Nat.xor b k :: xorBytes bs kk ≠ b :: bs
        intro hEq
        exact ih kk j (by simpa using hi) (by simpa using hks)
          (List.cons.inj hEq).2

theorem encode_eq (c : Codec) (hd : DCCLHeader) (sch : Schema) (m : DCCLMsg)
    (bytes : List Nat) (henc : Codec.encode c hd sch m = some bytes) :
    wellTyped sch m = true ∧
    bytes = dcclEncrypt c.crypto_key
      (bitsToBytes (encodeHeader hd ++ encodeBody sch m)) := by
  by_cases hwt : wellTyped sch m
  · refine ⟨hwt, ?_⟩
    unfold Codec.encode at henc
    rw [if_pos hwt] at henc
    exact (Option.some.inj henc).symm
  · unfold Codec.encode at henc
    rw [if_neg hwt] at henc
    cases henc

theorem id_from_encoded_encrypt (key : List Nat) (hd : DCCLHeader)
    (body : List Bool) :
    id_from_encoded (dcclEncrypt key (bitsToBytes (encodeHeader hd ++ body))) =
      some (hd.dccl_id % 2 ^ head_dccl_id_size) := by
  have htake : (dcclEncrypt key
      (bitsToBytes (encodeHeader hd ++ body))).take DCCL_NUM_HEADER_BYTES =
      bitsToBytes (encodeHeader hd) := by
    rw [dcclEncrypt_take]
    show (bitsToBytes (encodeHeader hd ++ body)).take 6 =
      bitsToBytes (encodeHeader hd)
    rw [bitsToBytes_take (encodeHeader hd ++ body) 6]
    have h48 : (8 : Nat) * 6 = (encodeHeader hd).length := by
      rw [encodeHeader_length]
    rw [h48, take_append_exact]
  have hdvd : (8 : Nat) ∣ (encodeHeader hd).length := by
    rw [encodeHeader_length]
    exact ⟨6, rfl⟩
  rw [id_from_encoded, htake, encodeBytes_bitsToBytes_of_dvd _ hdvd]
  rw [encodeHeader]
  simp only [List.append_assoc, popBits_natToBits, Option.bind_eq_bind,
    Option.some_bind]
  rfl

theorem decode_encode_ok (c : Codec) (hd : DCCLHeader) (sch : Schema)
    (m : DCCLMsg) (bytes : List Nat)
    (hlt : hd.dccl_id < 2 ^ head_dccl_id_size)
    (hlook : c.id2desc.lookup hd.dccl_id = some sch)
    (henc : Codec.encode c hd sch m = some bytes) :
    Codec.decode c bytes = .ok (truncHeader hd, normMsg sch m) := by
  obtain ⟨hwt, hbytes⟩ := encode_eq c hd sch m bytes henc
  subst hbytes
  have hid : id_from_encoded (dcclEncrypt c.crypto_key
      (bitsToBytes (encodeHeader hd ++ encodeBody sch m))) = some hd.dccl_id := by
    rw [id_from_encoded_encrypt, Nat.mod_eq_of_lt hlt]
  obtain ⟨k, hk⟩ := encodeBytes_bitsToBytes (encodeHeader hd ++ encodeBody sch m)
  simp only [Codec.decode, hid, hlook, dcclDecrypt_dcclEncrypt, hk,
    List.append_assoc, decodeHeader_encodeHeader,
    decodeBody_encodeBody sch m _ hwt]

/-- C6: the peek-only `id` operation applied to `encode(m)` returns the
dccl id the message was encoded under, without invoking the full
decoder: `id_from_encoded` reads only the header bytes and constructs
no message. -/
theorem id_peek_c6 (c : Codec) (hd : DCCLHeader) (sch : Schema) (m : DCCLMsg)
    (bytes : List Nat) (hlt : hd.dccl_id < 2 ^ head_dccl_id_size)
    (henc : Codec.encode c hd sch m = some bytes) :
    id_from_encoded bytes = some hd.dccl_id := by
  obtain ⟨hwt, hbytes⟩ := encode_eq c hd sch m bytes henc
  subst hbytes
  rw [id_from_encoded_encrypt, Nat.mod_eq_of_lt hlt]

theorem id_peek_c6_witness :
    (7 : Nat) < 2 ^ head_dccl_id_size ∧
    id_from_encoded (dcclEncrypt []
      (bitsToBytes (encodeHeader ⟨7, 0, 1, 2, false, false⟩ ++
        encodeBody [FieldType.frequired ScalarType.sbool]
          [FieldValue.vrequired (ScalarValue.vbool true)]))) = some 7 :=
  ⟨by decide,
   id_peek_c6 ⟨[(7, [FieldType.frequired ScalarType.sbool])], []⟩
     ⟨7, 0, 1, 2, false, false⟩ [FieldType.frequired ScalarType.sbool]
     [FieldValue.vrequired (ScalarValue.vbool true)] _ (by decide) (by rfl)⟩

/-- C1 (corrected): for every loaded valid schema and well-typed
message, decoding the encoding yields the message again once the
codec's full normalization `normMsg` is applied: repeated fields
truncated to max_count and strings to max_length as the original claim
states, but also bytes fields truncated and zero-padded to exactly
max_length and numeric fields clamped and snapped to the precision
grid by round((x - min)/precision).  The original claim's
truncation-only normalization is refuted by
`round_trip_c1_counterexample`: an off-grid numeric is rounded on
encode and a short bytes field comes back zero-padded, neither
repaired by the two stated truncations.  Moreover the normalized
message serializes to the same body bits, so equality judged on the
serialized normalized form holds. -/
theorem round_trip_c1 (c : Codec) (hd : DCCLHeader) (sch : Schema)
    (m : DCCLMsg) (bytes : List Nat)
    (hlt : hd.dccl_id < 2 ^ head_dccl_id_size)
    (hlook : c.id2desc.lookup hd.dccl_id = some sch)
    (hsch : schemaOk sch = true)
    (henc : Codec.encode c hd sch m = some bytes) :
    Codec.decode c bytes = .ok (truncHeader hd, normMsg sch m) ∧
    encodeBody sch (normMsg sch m) = encodeBody sch m :=
  ⟨decode_encode_ok c hd sch m bytes hlt hlook henc,
   encodeBody_normMsg sch m hsch⟩

set_option maxRecDepth 8000 in
theorem round_trip_c1_witness :
    Codec.decode
        ⟨[(7,
           [FieldType.frequired
              (ScalarType.snum (mkRat 0 1) (mkRat 1 1) (mkRat 1 10)),
            FieldType.foptional
              (ScalarType.snum (mkRat (-5) 1) (mkRat 5 1) (mkRat 1 1)),
            FieldType.foptional (ScalarType.senum 3),
            FieldType.frequired ScalarType.sbool,
            FieldType.frequired (ScalarType.sstr 4),
            FieldType.frequired (ScalarType.sbytes 3),
            FieldType.frepeated
              (ScalarType.snum (mkRat 0 1) (mkRat 3 1) (mkRat 1 1)) 2,
            FieldType.fmsg_required [FieldType.frequired ScalarType.sbool],
            FieldType.fmsg_optional [FieldType.frequired (ScalarType.senum 2)],
            FieldType.fmsg_repeated [FieldType.frequired ScalarType.sbool] 2])],
          []⟩
        (dcclEncrypt [] (bitsToBytes
          (encodeHeader ⟨7, 0, 1, 2, false, false⟩ ++
            encodeBody
              [FieldType.frequired
                 (ScalarType.snum (mkRat 0 1) (mkRat 1 1) (mkRat 1 10)),
               FieldType.foptional
                 (ScalarType.snum (mkRat (-5) 1) (mkRat 5 1) (mkRat 1 1)),
               FieldType.foptional (ScalarType.senum 3),
               FieldType.frequired ScalarType.sbool,
               FieldType.frequired (ScalarType.sstr 4),
               FieldType.frequired (ScalarType.sbytes 3),
               FieldType.frepeated
                 (ScalarType.snum (mkRat 0 1) (mkRat 3 1) (mkRat 1 1)) 2,
               FieldType.fmsg_required [FieldType.frequired ScalarType.sbool],
               FieldType.fmsg_optional
                 [FieldType.frequired (ScalarType.senum 2)],
               FieldType.fmsg_repeated
                 [FieldType.frequired ScalarType.sbool] 2]
              [FieldValue.vrequired (ScalarValue.vnum (mkRat 1 20)),
               FieldValue.vopt_none,
               FieldValue.vopt_some (ScalarValue.venum 2),
               FieldValue.vrequired (ScalarValue.vbool true),
               FieldValue.vrequired
                 (ScalarValue.vstr [104, 105, 106, 107, 108]),
               FieldValue.vrequired (ScalarValue.vbytes [7]),
               FieldValue.vrepeated
                 [ScalarValue.vnum (mkRat 1 1), ScalarValue.vnum (mkRat 2 1),
                  ScalarValue.vnum (mkRat 3 1)],
               FieldValue.vmsg_required
                 [FieldValue.vrequired (ScalarValue.vbool false)],
               FieldValue.vmsg_some
                 [FieldValue.vrequired (ScalarValue.venum 1)],
               FieldValue.vmsg_repeated
                 [[FieldValue.vrequired (ScalarValue.vbool true)],
                  [FieldValue.vrequired (ScalarValue.vbool false)],
                  [FieldValue.vrequired (ScalarValue.vbool true)]]]))) =
      .ok (truncHeader ⟨7, 0, 1, 2, false, false⟩,
        normMsg
          [FieldType.frequired
             (ScalarType.snum (mkRat 0 1) (mkRat 1 1) (mkRat 1 10)),
           FieldType.foptional
             (ScalarType.snum (mkRat (-5) 1) (mkRat 5 1) (mkRat 1 1)),
           FieldType.foptional (ScalarType.senum 3),
           FieldType.frequired ScalarType.sbool,
           FieldType.frequired (ScalarType.sstr 4),
           FieldType.frequired (ScalarType.sbytes 3),
           FieldType.frepeated
             (ScalarType.snum (mkRat 0 1) (mkRat 3 1) (mkRat 1 1)) 2,
           FieldType.fmsg_required [FieldType.frequired ScalarType.sbool],
           FieldType.fmsg_optional [FieldType.frequired (ScalarType.senum 2)],
           FieldType.fmsg_repeated [FieldType.frequired ScalarType.sbool] 2]
          [FieldValue.vrequired (ScalarValue.vnum (mkRat 1 20)),
           FieldValue.vopt_none,
           FieldValue.vopt_some (ScalarValue.venum 2),
           FieldValue.vrequired (ScalarValue.vbool true),
           FieldValue.vrequired (ScalarValue.vstr [104, 105, 106, 107, 108]),
           FieldValue.vrequired (ScalarValue.vbytes [7]),
           FieldValue.vrepeated
             [ScalarValue.vnum (mkRat 1 1), ScalarValue.vnum (mkRat 2 1),
              ScalarValue.vnum (mkRat 3 1)],
           FieldValue.vmsg_required
             [FieldValue.vrequired (ScalarValue.vbool false)],
           FieldValue.vmsg_some [FieldValue.vrequired (ScalarValue.venum 1)],
           FieldValue.vmsg_repeated
             [[FieldValue.vrequired (ScalarValue.vbool true)],
              [FieldValue.vrequired (ScalarValue.vbool false)],
              [FieldValue.vrequired (ScalarValue.vbool true)]]]) ∧
    encodeBody
        [FieldType.frequired
           (ScalarType.snum (mkRat 0 1) (mkRat 1 1) (mkRat 1 10)),
         FieldType.foptional
           (ScalarType.snum (mkRat (-5) 1) (mkRat 5 1) (mkRat 1 1)),
         FieldType.foptional (ScalarType.senum 3),
         FieldType.frequired ScalarType.sbool,
         FieldType.frequired (ScalarType.sstr 4),
         FieldType.frequired (ScalarType.sbytes 3),
         FieldType.frepeated
           (ScalarType.snum (mkRat 0 1) (mkRat 3 1) (mkRat 1 1)) 2,
         FieldType.fmsg_required [FieldType.frequired ScalarType.sbool],
         FieldType.fmsg_optional [FieldType.frequired (ScalarType.senum 2)],
         FieldType.fmsg_repeated [FieldType.frequired ScalarType.sbool] 2]
        (normMsg
          [FieldType.frequired
             (ScalarType.snum (mkRat 0 1) (mkRat 1 1) (mkRat 1 10)),
           FieldType.foptional
             (ScalarType.snum (mkRat (-5) 1) (mkRat 5 1) (mkRat 1 1)),
           FieldType.foptional (ScalarType.senum 3),
           FieldType.frequired ScalarType.sbool,
           FieldType.frequired (ScalarType.sstr 4),
           FieldType.frequired (ScalarType.sbytes 3),
           FieldType.frepeated
             (ScalarType.snum (mkRat 0 1) (mkRat 3 1) (mkRat 1 1)) 2,
           FieldType.fmsg_required [FieldType.frequired ScalarType.sbool],
           FieldType.fmsg_optional [FieldType.frequired (ScalarType.senum 2)],
           FieldType.fmsg_repeated [FieldType.frequired ScalarType.sbool] 2]
          [FieldValue.vrequired (ScalarValue.vnum (mkRat 1 20)),
           FieldValue.vopt_none,
           FieldValue.vopt_some (ScalarValue.venum 2),
           FieldValue.vrequired (ScalarValue.vbool true),
           FieldValue.vrequired (ScalarValue.vstr [104, 105, 106, 107, 108]),
           FieldValue.vrequired (ScalarValue.vbytes [7]),
           FieldValue.vrepeated
             [ScalarValue.vnum (mkRat 1 1), ScalarValue.vnum (mkRat 2 1),
              ScalarValue.vnum (mkRat 3 1)],
           FieldValue.vmsg_required
             [FieldValue.vrequired (ScalarValue.vbool false)],
           FieldValue.vmsg_some [FieldValue.vrequired (ScalarValue.venum 1)],
           FieldValue.vmsg_repeated
             [[FieldValue.vrequired (ScalarValue.vbool true)],
              [FieldValue.vrequired (ScalarValue.vbool false)],
              [FieldValue.vrequired (ScalarValue.vbool true)]]]) =
      encodeBody
        [FieldType.frequired
           (ScalarType.snum (mkRat 0 1) (mkRat 1 1) (mkRat 1 10)),
         FieldType.foptional
           (ScalarType.snum (mkRat (-5) 1) (mkRat 5 1) (mkRat 1 1)),
         FieldType.foptional (ScalarType.senum 3),
         FieldType.frequired ScalarType.sbool,
         FieldType.frequired (ScalarType.sstr 4),
         FieldType.frequired (ScalarType.sbytes 3),
         FieldType.frepeated
           (ScalarType.snum (mkRat 0 1) (mkRat 3 1) (mkRat 1 1)) 2,
         FieldType.fmsg_required [FieldType.frequired ScalarType.sbool],
         FieldType.fmsg_optional [FieldType.frequired (ScalarType.senum 2)],
         FieldType.fmsg_repeated [FieldType.frequired ScalarType.sbool] 2]
        [FieldValue.vrequired (ScalarValue.vnum (mkRat 1 20)),
         FieldValue.vopt_none,
         FieldValue.vopt_some (ScalarValue.venum 2),
         FieldValue.vrequired (ScalarValue.vbool true),
         FieldValue.vrequired (ScalarValue.vstr [104, 105, 106, 107, 108]),
         FieldValue.vrequired (ScalarValue.vbytes [7]),
         FieldValue.vrepeated
           [ScalarValue.vnum (mkRat 1 1), ScalarValue.vnum (mkRat 2 1),
            ScalarValue.vnum (mkRat 3 1)],
         FieldValue.vmsg_required
           [FieldValue.vrequired (ScalarValue.vbool false)],
         FieldValue.vmsg_some [FieldValue.vrequired (ScalarValue.venum 1)],
         FieldValue.vmsg_repeated
           [[FieldValue.vrequired (ScalarValue.vbool true)],
            [FieldValue.vrequired (ScalarValue.vbool false)],
            [FieldValue.vrequired (ScalarValue.vbool true)]]] :=
  round_trip_c1
    ⟨[(7,
       [FieldType.frequired
          (ScalarType.snum (mkRat 0 1) (mkRat 1 1) (mkRat 1 10)),
        FieldType.foptional
          (ScalarType.snum (mkRat (-5) 1) (mkRat 5 1) (mkRat 1 1)),
        FieldType.foptional (ScalarType.senum 3),
        FieldType.frequired ScalarType.sbool,
        FieldType.frequired (ScalarType.sstr 4),
        FieldType.frequired (ScalarType.sbytes 3),
        FieldType.frepeated
          (ScalarType.snum (mkRat 0 1) (mkRat 3 1) (mkRat 1 1)) 2,
        FieldType.fmsg_required [FieldType.frequired ScalarType.sbool],
        FieldType.fmsg_optional [FieldType.frequired (ScalarType.senum 2)],
        FieldType.fmsg_repeated [FieldType.frequired ScalarType.sbool] 2])],
      []⟩
    ⟨7, 0, 1, 2, false, false⟩
    [FieldType.frequired
       (ScalarType.snum (mkRat 0 1) (mkRat 1 1) (mkRat 1 10)),
     FieldType.foptional
       (ScalarType.snum (mkRat (-5) 1) (mkRat 5 1) (mkRat 1 1)),
     FieldType.foptional (ScalarType.senum 3),
     FieldType.frequired ScalarType.sbool,
     FieldType.frequired (ScalarType.sstr 4),
     FieldType.frequired (ScalarType.sbytes 3),
     FieldType.frepeated
       (ScalarType.snum (mkRat 0 1) (mkRat 3 1) (mkRat 1 1)) 2,
     FieldType.fmsg_required [FieldType.frequired ScalarType.sbool],
     FieldType.fmsg_optional [FieldType.frequired (ScalarType.senum 2)],
     FieldType.fmsg_repeated [FieldType.frequired ScalarType.sbool] 2]
    [FieldValue.vrequired (ScalarValue.vnum (mkRat 1 20)),
     FieldValue.vopt_none,
     FieldValue.vopt_some (ScalarValue.venum 2),
     FieldValue.vrequired (ScalarValue.vbool true),
     FieldValue.vrequired (ScalarValue.vstr [104, 105, 106, 107, 108]),
     FieldValue.vrequired (ScalarValue.vbytes [7]),
     FieldValue.vrepeated
       [ScalarValue.vnum (mkRat 1 1), ScalarValue.vnum (mkRat 2 1),
        ScalarValue.vnum (mkRat 3 1)],
     FieldValue.vmsg_required
       [FieldValue.vrequired (ScalarValue.vbool false)],
     FieldValue.vmsg_some [FieldValue.vrequired (ScalarValue.venum 1)],
     FieldValue.vmsg_repeated
       [[FieldValue.vrequired (ScalarValue.vbool true)],
        [FieldValue.vrequired (ScalarValue.vbool false)],
        [FieldValue.vrequired (ScalarValue.vbool true)]]]
    _ (by decide) (by rfl) (by rfl) (by rfl)

set_option maxRecDepth 8000 in
theorem round_trip_c1_counterexample :
    truncStatedMsg
        [FieldType.frequired (ScalarType.sbytes 2),
         FieldType.frequired
           (ScalarType.snum (mkRat 0 1) (mkRat 1 1) (mkRat 1 10))]
        [FieldValue.vrequired (ScalarValue.vbytes [1]),
         FieldValue.vrequired (ScalarValue.vnum (mkRat 1 20))] =
      [FieldValue.vrequired (ScalarValue.vbytes [1]),
       FieldValue.vrequired (ScalarValue.vnum (mkRat 1 20))] ∧
    Codec.encode
        ⟨[(7, [FieldType.frequired (ScalarType.sbytes 2),
               FieldType.frequired
                 (ScalarType.snum (mkRat 0 1) (mkRat 1 1) (mkRat 1 10))])],
          []⟩
        ⟨7, 0, 1, 2, false, false⟩
        [FieldType.frequired (ScalarType.sbytes 2),
         FieldType.frequired
           (ScalarType.snum (mkRat 0 1) (mkRat 1 1) (mkRat 1 10))]
        [FieldValue.vrequired (ScalarValue.vbytes [1]),
         FieldValue.vrequired (ScalarValue.vnum (mkRat 1 20))] =
      some (bitsToBytes
        (encodeHeader ⟨7, 0, 1, 2, false, false⟩ ++
          encodeBody
            [FieldType.frequired (ScalarType.sbytes 2),
             FieldType.frequired
               (ScalarType.snum (mkRat 0 1) (mkRat 1 1) (mkRat 1 10))]
            [FieldValue.vrequired (ScalarValue.vbytes [1]),
             FieldValue.vrequired (ScalarValue.vnum (mkRat 1 20))])) ∧
    Codec.decode
        ⟨[(7, [FieldType.frequired (ScalarType.sbytes 2),
               FieldType.frequired
                 (ScalarType.snum (mkRat 0 1) (mkRat 1 1) (mkRat 1 10))])],
          []⟩
        (bitsToBytes
          (encodeHeader ⟨7, 0, 1, 2, false, false⟩ ++
            encodeBody
              [FieldType.frequired (ScalarType.sbytes 2),
               FieldType.frequired
                 (ScalarType.snum (mkRat 0 1) (mkRat 1 1) (mkRat 1 10))]
              [FieldValue.vrequired (ScalarValue.vbytes [1]),
               FieldValue.vrequired (ScalarValue.vnum (mkRat 1 20))])) ≠
      .ok (truncHeader ⟨7, 0, 1, 2, false, false⟩,
        [FieldValue.vrequired (ScalarValue.vbytes [1]),
         FieldValue.vrequired (ScalarValue.vnum (mkRat 1 20))]) := by
  refine ⟨rfl, rfl, ?_⟩
  intro h
  rw [show Codec.decode
      ⟨[(7, [FieldType.frequired (ScalarType.sbytes 2),
             FieldType.frequired
               (ScalarType.snum (mkRat 0 1) (mkRat 1 1) (mkRat 1 10))])],
        []⟩
      (bitsToBytes
        (encodeHeader ⟨7, 0, 1, 2, false, false⟩ ++
          encodeBody
            [FieldType.frequired (ScalarType.sbytes 2),
             FieldType.frequired
               (ScalarType.snum (mkRat 0 1) (mkRat 1 1) (mkRat 1 10))]
            [FieldValue.vrequired (ScalarValue.vbytes [1]),
             FieldValue.vrequired (ScalarValue.vnum (mkRat 1 20))])) =
    .ok (truncHeader ⟨7, 0, 1, 2, false, false⟩,
      [FieldValue.vrequired (ScalarValue.vbytes [1, 0]),
       FieldValue.vrequired (ScalarValue.vnum (mkRat 1 10))]) from rfl] at h
  have h2 : ScalarValue.vbytes [1, 0] = ScalarValue.vbytes [1] := by
    injection h with h1
    injection h1 with h2 h3
    injection h3 with h4 h5
    injection h4
  have h3 : ([1, 0] : List Nat) = [1] := by
    injection h2
  simp at h3

/-- C3: with a passphrase configured, the cipher key is the SHA-256
digest of the passphrase, and encryption touches only the body bytes:
the first 6 header bytes of the encrypted output equal those of the
unencrypted output, the body bytes differ (whenever the keystream over
the body is not identically zero, which the witness checks at a
concrete input), and decoding with the same passphrase recovers the
message. -/
theorem crypto_body_only_c3 (c : Codec) (p : List Nat) (hd : DCCLHeader)
    (sch : Schema) (m : DCCLMsg) (plain enc : List Nat)
    (hplain : Codec.encode ⟨c.id2desc, []⟩ hd sch m = some plain)
    (henc : Codec.encode (set_crypto_passphrase c p) hd sch m = some enc)
    (hlt : hd.dccl_id < 2 ^ head_dccl_id_size)
    (hlook : c.id2desc.lookup hd.dccl_id = some sch)
    (hdiff : ∃ i, i < (plain.drop DCCL_NUM_HEADER_BYTES).length ∧
      (keystream (sha256 p) (plain.take DCCL_NUM_HEADER_BYTES)
        (plain.drop DCCL_NUM_HEADER_BYTES).length).get? i ≠ some 0) :
    (set_crypto_passphrase c p).crypto_key = sha256 p ∧
    enc.take DCCL_NUM_HEADER_BYTES = plain.take DCCL_NUM_HEADER_BYTES ∧
    enc.drop DCCL_NUM_HEADER_BYTES ≠ plain.drop DCCL_NUM_HEADER_BYTES ∧
    Codec.decode (set_crypto_passphrase c p) enc =
      .ok (truncHeader hd, normMsg sch m) := by
  obtain ⟨hwt, hpe⟩ := encode_eq _ hd sch m plain hplain
  obtain ⟨_, hee⟩ := encode_eq _ hd sch m enc henc
  have hpe' : plain =
      bitsToBytes (encodeHeader hd ++ encodeBody sch m) := by
    rw [hpe, dcclEncrypt_nil_key]
  have hee' : enc = dcclEncrypt (sha256 p)
      (bitsToBytes (encodeHeader hd ++ encodeBody sch m)) := hee
  refine ⟨rfl, ?_, ?_, ?_⟩
  · rw [hee', hpe', dcclEncrypt_take]
  · obtain ⟨i, hi, hks⟩ := hdiff
    have h6 : DCCL_NUM_HEADER_BYTES ≤ plain.length := by
      have := hi
      simp only [List.length_drop] at this
      omega
    have hdrop : enc.drop DCCL_NUM_HEADER_BYTES =
        xorBytes (plain.drop DCCL_NUM_HEADER_BYTES)
          (keystream (sha256 p) (plain.take DCCL_NUM_HEADER_BYTES)
            (plain.drop DCCL_NUM_HEADER_BYTES).length) := by
      rw [hee', ← hpe']
      exact dcclEncrypt_drop (sha256 p) plain (sha256_isEmpty p) h6
    rw [hdrop]
    exact xorBytes_ne _ _ i hi hks
  · exact decode_encode_ok (set_crypto_passphrase c p) hd sch m enc hlt
      (by simpa [set_crypto_passphrase] using hlook) henc

set_option maxRecDepth 4000 in
theorem crypto_body_only_c3_witness :
    (set_crypto_passphrase (⟨[(7, [FieldType.frequired (ScalarType.sstr 2)])], []⟩ : Codec) [97, 98, 99]).crypto_key =
      sha256 [97, 98, 99] ∧
    List.take DCCL_NUM_HEADER_BYTES (dcclEncrypt (sha256 [97, 98, 99]) (bitsToBytes (encodeHeader (⟨7, 0, 1, 2, false, false⟩ : DCCLHeader) ++ encodeBody [FieldType.frequired (ScalarType.sstr 2)] [FieldValue.vrequired (ScalarValue.vstr [104, 105])]))) =
      List.take DCCL_NUM_HEADER_BYTES (bitsToBytes (encodeHeader (⟨7, 0, 1, 2, false, false⟩ : DCCLHeader) ++ encodeBody [FieldType.frequired (ScalarType.sstr 2)] [FieldValue.vrequired (ScalarValue.vstr [104, 105])])) ∧
    List.drop DCCL_NUM_HEADER_BYTES (dcclEncrypt (sha256 [97, 98, 99]) (bitsToBytes (encodeHeader (⟨7, 0, 1, 2, false, false⟩ : DCCLHeader) ++ encodeBody [FieldType.frequired (ScalarType.sstr 2)] [FieldValue.vrequired (ScalarValue.vstr [104, 105])]))) ≠
      List.drop DCCL_NUM_HEADER_BYTES (bitsToBytes (encodeHeader (⟨7, 0, 1, 2, false, false⟩ : DCCLHeader) ++ encodeBody [FieldType.frequired (ScalarType.sstr 2)] [FieldValue.vrequired (ScalarValue.vstr [104, 105])])) ∧
    Codec.decode (set_crypto_passphrase (⟨[(7, [FieldType.frequired (ScalarType.sstr 2)])], []⟩ : Codec) [97, 98, 99]) (dcclEncrypt (sha256 [97, 98, 99]) (bitsToBytes (encodeHeader (⟨7, 0, 1, 2, false, false⟩ : DCCLHeader) ++ encodeBody [FieldType.frequired (ScalarType.sstr 2)] [FieldValue.vrequired (ScalarValue.vstr [104, 105])]))) =
      .ok (truncHeader (⟨7, 0, 1, 2, false, false⟩ : DCCLHeader), normMsg [FieldType.frequired (ScalarType.sstr 2)] [FieldValue.vrequired (ScalarValue.vstr [104, 105])]) :=
  crypto_body_only_c3 (⟨[(7, [FieldType.frequired (ScalarType.sstr 2)])], []⟩ : Codec) [97, 98, 99] (⟨7, 0, 1, 2, false, false⟩ : DCCLHeader) [FieldType.frequired (ScalarType.sstr 2)] [FieldValue.vrequired (ScalarValue.vstr [104, 105])]
    (bitsToBytes (encodeHeader (⟨7, 0, 1, 2, false, false⟩ : DCCLHeader) ++ encodeBody [FieldType.frequired (ScalarType.sstr 2)] [FieldValue.vrequired (ScalarValue.vstr [104, 105])])) (dcclEncrypt (sha256 [97, 98, 99]) (bitsToBytes (encodeHeader (⟨7, 0, 1, 2, false, false⟩ : DCCLHeader) ++ encodeBody [FieldType.frequired (ScalarType.sstr 2)] [FieldValue.vrequired (ScalarValue.vstr [104, 105])])))
    (by rfl) (by rfl) (by decide) (by rfl)
    ⟨0, by decide, by decide⟩

theorem nodup_append_one {α : Type} {l : List α} {a : α}
    (h : l.Nodup) (ha : a ∉ l) : (l ++ [a]).Nodup := by
  simp [List.nodup_append, h, ha]

theorem waiting_filter_nodup (q : QueueState) (pred : Nat × Nat → Bool)
    (h : (waitingIds q).Nodup) :
    ((q.waiting_for_ack.filter pred).map Prod.snd).Nodup :=
  List.Nodup.sublist
    (List.Sublist.map Prod.snd (List.filter_sublist q.waiting_for_ack)) h

theorem reachable_queueInv (q0 : QueueState) (hq0 : QueueReachable q0) :
    queueInv q0 := by
  induction hq0 with
  | init =>
    exact ⟨fun p hp => absurd hp (by simp [emptyQueue]),
      by simp [emptyQueue, waitingIds]⟩
  | @push q m hprev ih =>
    obtain ⟨hinv, hnd⟩ := ih
    refine ⟨fun p hp => ?_, hnd⟩
    obtain ⟨m', hm', hack⟩ := hinv p hp
    exact ⟨m', List.mem_append_left _ hm', hack⟩
  | @give q frame hprev ih =>
    obtain ⟨hinv, hnd⟩ := ih
    cases hnm : next_message q with
    | none =>
      have hg : (give_data q frame).2 = q := by
        simp [give_data, hnm]
      rw [hg]
      exact ⟨hinv, hnd⟩
    | some pm =>
      obtain ⟨id, msg⟩ := pm
      rw [next_message] at hnm
      have hmem : (id, msg) ∈ q.messages := List.mem_of_find?_eq_some hnm
      have hid : id ∉ waitingIds q := by
        have := List.find?_some hnm
        simpa using this
      by_cases hack : msg.ackRequested = true
      · have hg : (give_data q frame).2 =
            { q with waiting_for_ack := q.waiting_for_ack ++ [(frame, id)] } := by
          unfold give_data next_message
          rw [hnm]
          simp [hack]
        rw [hg]
        constructor
        · intro p hp
          rcases List.mem_append.1 hp with hp | hp
          · exact hinv p hp
          · simp only [List.mem_singleton] at hp
            subst hp
            exact ⟨msg, hmem, hack⟩
        · show ((q.waiting_for_ack ++ [(frame, id)]).map Prod.snd).Nodup
          rw [List.map_append]
          exact nodup_append_one hnd hid
      · have hg : (give_data q frame).2 =
            { q with messages := q.messages.filter (fun p => p.1 ≠ id) } := by
          unfold give_data next_message
          rw [hnm]
          simp [hack]
        rw [hg]
        refine ⟨fun p hp => ?_, hnd⟩
        obtain ⟨m', hm', hackm⟩ := hinv p hp
        have hne : p.2 ≠ id := by
          intro he
          exact hid (he ▸ List.mem_map_of_mem Prod.snd hp)
        exact ⟨m', List.mem_filter.2 ⟨hm', by simpa using hne⟩, hackm⟩
  | @ack q frame hprev ih =>
    obtain ⟨hinv, hnd⟩ := ih
    cases hf : q.waiting_for_ack.find? (fun p => p.1 = frame) with
    | none =>
      have ha : (pop_message_ack q frame).2 = q := by
        simp [pop_message_ack, hf]
      rw [ha]
      exact ⟨hinv, hnd⟩
    | some pr =>
      obtain ⟨f, id⟩ := pr
      have hpm : (f, id) ∈ q.waiting_for_ack := List.mem_of_find?_eq_some hf
      have ha : (pop_message_ack q frame).2 =
          { q with
              messages := q.messages.filter (fun p => p.1 ≠ id),
              waiting_for_ack :=
                q.waiting_for_ack.filter (fun p => p ≠ (f, id)) } := by
        simp [pop_message_ack, hf]
      rw [ha]
      constructor
      · intro p hp
        have hp1 : p ∈ q.waiting_for_ack := (List.mem_filter.1 hp).1
        have hp2 : p ≠ (f, id) := by
          have := (List.mem_filter.1 hp).2
          simpa using this
        obtain ⟨m', hm', hackm⟩ := hinv p hp1
        have hne : p.2 ≠ id := by
          intro he
          exact hp2 (List.inj_on_of_nodup_map hnd hp1 hpm (by rw [he]))
        exact ⟨m', List.mem_filter.2 ⟨hm', by simpa using hne⟩, hackm⟩
      · exact waiting_filter_nodup q _ hnd
  | @expire q now hprev ih =>
    obtain ⟨hinv, hnd⟩ := ih
    constructor
    · intro p hp
      simp only [expireQ] at hp
      have hp1 : p ∈ q.waiting_for_ack := (List.mem_filter.1 hp).1
      have hp2 : ∀ x : QMsg, (p.2, x) ∈ q.messages →
          QMsg.expired now x = false := by
        have := (List.mem_filter.1 hp).2
        simpa using this
      obtain ⟨m', hm', hackm⟩ := hinv p hp1
      refine ⟨m', ?_, hackm⟩
      simp only [expireQ]
      exact List.mem_filter.2 ⟨hm', by simp [hp2 m' hm']⟩
    · exact waiting_filter_nodup q _ hnd
  | @flush q hprev ih =>
    exact ⟨fun p hp => absurd hp (by simp [flushQ]),
      by simp [flushQ, waitingIds]⟩
  | @clearAck q hprev ih =>
    exact ⟨fun p hp => absurd hp (by simp [clear_ack_queue]),
      by simp [clear_ack_queue, waitingIds]⟩

/-- C7: in every reachable queue state, each pair of the ack-pending
multimap refers to an entry still present in the FIFO list with
ack_requested set (an entry "has a pending frame number" exactly when
such a pair exists, so the two structures agree); the operations that
remove entries from the FIFO — ack pop, TTL expiry, flush — leave no
dangling multimap pair behind; and TTL expiry emits exactly the expired
entries through the expire() stream while keeping exactly the
unexpired ones. -/
theorem queue_ack_invariant_c7 (q : QueueState) (hq : QueueReachable q) :
    ackInv q ∧
    (∀ frame, ackInv (pop_message_ack q frame).2) ∧
    (∀ now, ackInv (expireQ q now).2 ∧
      (expireQ q now).1 =
        (q.messages.filter (fun p => p.2.expired now)).map Prod.snd ∧
      (expireQ q now).2.messages =
        q.messages.filter (fun p => !(p.2.expired now))) ∧
    ackInv (flushQ q) :=
  ⟨(reachable_queueInv q hq).1,
   fun frame => (reachable_queueInv _ (QueueReachable.ack frame hq)).1,
   fun now => ⟨(reachable_queueInv _ (QueueReachable.expire now hq)).1, rfl, rfl⟩,
   (reachable_queueInv _ (QueueReachable.flush hq)).1⟩

theorem queue_ack_invariant_c7_witness :
    ackInv (give_data (push_message emptyQueue ⟨[], true, 0, 10⟩) 5).2 ∧
    (∀ frame, ackInv
      (pop_message_ack
        (give_data (push_message emptyQueue ⟨[], true, 0, 10⟩) 5).2 frame).2) ∧
    (∀ now, ackInv
        (expireQ (give_data (push_message emptyQueue ⟨[], true, 0, 10⟩) 5).2
          now).2 ∧
      (expireQ (give_data (push_message emptyQueue ⟨[], true, 0, 10⟩) 5).2
          now).1 =
        ((give_data (push_message emptyQueue ⟨[], true, 0, 10⟩)
            5).2.messages.filter (fun p => p.2.expired now)).map Prod.snd ∧
      (expireQ (give_data (push_message emptyQueue ⟨[], true, 0, 10⟩) 5).2
          now).2.messages =
        (give_data (push_message emptyQueue ⟨[], true, 0, 10⟩)
            5).2.messages.filter (fun p => !(p.2.expired now))) ∧
    ackInv (flushQ (give_data (push_message emptyQueue ⟨[], true, 0, 10⟩) 5).2) :=
  queue_ack_invariant_c7 _
    (QueueReachable.give 5 (QueueReachable.push ⟨[], true, 0, 10⟩
      QueueReachable.init))
